import Mathlib

/-!
Verification of the SPIR-V regularization pass (SPIRVRegularizeLLVM.cpp).

The development shallowly embeds three layers of the source file:

* Model A — the bit-level bodies synthesized by `buildUMulWithOverflowFunc`
  (lines 213-237) and `buildFunnelShiftLeftFunc` (lines 166-198), over
  W-bit natural numbers with explicit LLVM poison semantics (`Option`).
* Model B — the atomic compare-exchange decomposition of `regularize`
  (lines 311-380), as a rewriter over an instruction graph with use lists.
* Model C — the module-level pipeline of `regularize` (lines 266-386):
  dead-declaration elimination, function-pointer normalization, and the
  per-function walk that drives intrinsic lowering and sanitization.
-/

/- ===================== Model A: synthesized bodies ===================== -/

/-- LLVM `shl` on W-bit unsigned values: the low W bits of the shifted value;
poison (`none`) when the shift amount is at least the bit width. -/
def llvmShl (W a s : Nat) : Option Nat :=
  if s < W then some (a * 2 ^ s % 2 ^ W) else none

/-- LLVM `lshr` on W-bit unsigned values: zero-filled right shift;
poison (`none`) when the shift amount is at least the bit width. -/
def llvmLShr (W a s : Nat) : Option Nat :=
  if s < W then some (a / 2 ^ s) else none

/-- LLVM `mul nuw` on W-bit unsigned values, as emitted by
`Builder.CreateNUWMul` (line 227): the product when it fits in W bits,
poison (`none`) when unsigned wraparound occurs. -/
def llvmMulNUW (W a b : Nat) : Option Nat :=
  if a * b < 2 ^ W then some (a * b) else none

/-- LLVM `udiv` (line 228). Division by zero is immediate undefined
behaviour in LLVM; it is collapsed to `none` here, and every claim about
this body assumes a nonzero divisor anyway. -/
def llvmUDiv (a b : Nat) : Option Nat :=
  if b = 0 then none else some (a / b)

/-- The body synthesized by `buildUMulWithOverflowFunc` (lines 213-237) on
arguments `a`, `b` of width `W`:
`Mul = CreateNUWMul(FirstArg, SecondArg)`;
`Div = CreateUDiv(Mul, FirstArg)`;
`Overflow = CreateICmpNE(FirstArg, Div)` (line 229 compares the first
argument, not the second, against the quotient);
returns the composite `(Mul, Overflow)` built by the two `CreateInsertValue`
calls. A field holding a poison value is `none`. -/
def buildUMulWithOverflowFunc (W a b : Nat) : Option Nat × Option Bool :=
  let mul := llvmMulNUW W a b
  let div := mul.bind fun m => llvmUDiv m a
  let overflow := div.map fun d => decide (a ≠ d)
  (mul, overflow)

/-- The body synthesized by `buildFunnelShiftLeftFunc` (lines 166-198) for
one scalar lane of element width `W` (for vectors the same computation is
performed per lane with `W` broadcast): `RotateModVal = rot urem W`;
`ShiftLeft = Shl(a, RotateModVal)`; `SubRotateVal = W - RotateModVal`
(never wraps since `RotateModVal < W ≤ 2^W - 1`);
`ShiftRight = LShr(b, SubRotateVal)`; result is their `Or`. -/
def buildFunnelShiftLeftFunc (W a b rot : Nat) : Option Nat :=
  let rotateModVal := rot % W
  let shiftLeft := llvmShl W a rotateModVal
  let subRotateVal := W - rotateModVal
  let shiftRight := llvmLShr W b subRotateVal
  shiftLeft.bind fun x => shiftRight.map fun y => x ||| y

/-- Reference semantics of `llvm.fshl`, following the claim's words and the
doc comment at lines 91-97 of the source: concatenate `a` (more significant)
and `b` into a 2W-bit value, rotate left by `rot mod W`, keep the top W
bits. Total: `llvm.fshl` is well defined for every rotate amount. -/
def fshlReference (W a b rot : Nat) : Nat :=
  let s := rot % W
  let x := a * 2 ^ W + b
  let rotated := x % 2 ^ (2 * W - s) * 2 ^ s + x / 2 ^ (2 * W - s)
  rotated / 2 ^ W

/-- C1: the synthesized overflow flag is NOT `quotient ≠ b`. At
`W = 8, a = 2, b = 3` the product is `6`, the quotient `6 / 2 = 3` equals
`b`, and the true product `6` does not exceed `2^8 - 1`, so the claim says
the flag is false; but line 229 compares the quotient against the FIRST
argument (`CreateICmpNE(FirstArg, Div)`), contradicting the comment at
lines 224-226, and the built body returns the flag true. -/
theorem umul_overflow_flag_wrong_at_2_3 :
    buildUMulWithOverflowFunc 8 2 3 = (some 6, some true)
      ∧ 6 / 2 = 3 ∧ ¬ 2 * 3 > 2 ^ 8 - 1 := by
  decide

/-- C6: the product is NOT computed with silent wraparound. At
`W = 8, a = 16, b = 16` the mathematical product `256` exceeds `2^8 - 1`,
so the claim says the first field is the low 8 bits `256 % 256 = 0`; but
line 227 uses `CreateNUWMul`, whose result is poison on unsigned wrap, so
the body's first field (and the flag computed from it) is poison. -/
theorem umul_product_poison_on_wrap :
    buildUMulWithOverflowFunc 8 16 16 = (none, none)
      ∧ 16 * 16 % 2 ^ 8 = 0 := by
  decide

/-- C2: the synthesized funnel-shift body does not match the reference
rotate at `rot mod N = 0`. At `N = 8, a = 1, b = 2, rot = 0` the reference
rotate of the concatenation by 0 returns the top 8 bits, i.e. `a = 1`; but
the body right-shifts `b` by `N - 0 = 8 = N`, which is poison under LLVM
`lshr` semantics, so the whole result is poison rather than `1`. -/
theorem fshl_poison_at_rotate_zero :
    buildFunnelShiftLeftFunc 8 1 2 0 = none
      ∧ fshlReference 8 1 2 0 = 1 := by
  decide

/- ============ Model B: atomic compare-exchange decomposition ============ -/

/-- Instruction kinds relevant to the compare-exchange decomposition of
`regularize` (lines 311-374). `atomicB` is the inserted call to
`__spirv_AtomicCompareExchange` returning the original value; `insertValue0B`
is `insertvalue undef x 0` ("agg0"), `insertValue1B` is `insertvalue a x 1`
("agg1"); `otherB` stands for any other instruction. -/
inductive BKind where
  | cmpxchgB
  | atomicB
  | extractB (idx : Nat)
  | icmpEqB
  | insertValue0B
  | insertValue1B
  | storeB
  | constB (n : Nat)
  | otherB
deriving DecidableEq

/-- An instruction node: a stable identifier, a kind, and operand ids. -/
structure BInstr where
  id : Nat
  kind : BKind
  ops : List Nat
deriving DecidableEq

/-- A function-body fragment under rewriting: the instruction list, the next
fresh value id, and the `ToErase` vector accumulated by `regularize`. -/
structure BState where
  instrs : List BInstr
  nextId : Nat
  toErase : List Nat
deriving DecidableEq

/-- Outcome of handling one consumer of the composite: `fatal` models
`llvm_unreachable("Unxpected cmpxchg pattern")` at line 357. -/
inductive Outcome where
  | normal
  | fatal
deriving DecidableEq

/-- Look an instruction up by id. -/
def findB (s : BState) (v : Nat) : Option BInstr :=
  s.instrs.find? (fun i => i.id == v)

/-- The use-list of value `v`: every instruction holding `v` as an operand. -/
def usersB (s : BState) (v : Nat) : List BInstr :=
  s.instrs.filter (fun i => i.ops.contains v)

/-- `replaceAllUsesWith`: rewrite operand `v` to `w` in every instruction. -/
def rauwB (s : BState) (v w : Nat) : BState :=
  { s with instrs := s.instrs.map fun i =>
      { i with ops := i.ops.map fun o => if o = v then w else o } }

/-- `dropAllReferences` on the instruction with id `uid`. -/
def dropRefsB (s : BState) (uid : Nat) : BState :=
  { s with instrs := s.instrs.map fun i =>
      if i.id = uid then { i with ops := [] } else i }

/-- `ToErase.push_back(uid)`. -/
def markEraseB (s : BState) (uid : Nat) : BState :=
  { s with toErase := s.toErase ++ [uid] }

/-- Insert a new instruction immediately before the one with id `anchor`. -/
def insertBeforeB (l : List BInstr) (anchor : Nat) (newI : BInstr) : List BInstr :=
  match l with
  | [] => [newI]
  | i :: rest =>
      if i.id = anchor then newI :: i :: rest else i :: insertBeforeB rest anchor newI

/-- Handle one consumer of the cmpxchg composite, mirroring the loop body at
lines 348-371. `res` is the id of the inserted atomic call's result, `comp`
the comparator operand, `cxId` the original instruction. The consumer is
re-fetched by id, since earlier iterations may have rewritten its operands
(exactly as the C++ reads the live instruction). A consumer that is neither
an `extractvalue` nor a `store` falls through the `if`/`else if` chain with
no `else`: the source silently leaves it unmodified. -/
def processUserB (res comp cxId : Nat) (uid : Nat) (s : BState) : Outcome × BState :=
  match findB s uid with
  | none => (Outcome.normal, s)
  | some u =>
    match u.kind with
    | BKind.extractB 0 =>
        let s1 := rauwB s uid res
        (Outcome.normal, markEraseB (dropRefsB s1 uid) uid)
    | BKind.extractB 1 =>
        let cmpId := s.nextId
        let s1 : BState :=
          { instrs := insertBeforeB s.instrs uid ⟨cmpId, BKind.icmpEqB, [res, comp]⟩
            nextId := s.nextId + 1
            toErase := s.toErase }
        let s2 := rauwB s1 uid cmpId
        (Outcome.normal, markEraseB (dropRefsB s2 uid) uid)
    | BKind.extractB _ => (Outcome.fatal, s)
    | BKind.storeB =>
        let v := u.ops.getD 0 0
        let cmpId := s.nextId
        let a0 := s.nextId + 1
        let a1 := s.nextId + 2
        let l1 := insertBeforeB s.instrs uid ⟨cmpId, BKind.icmpEqB, [res, comp]⟩
        let l2 := insertBeforeB l1 uid ⟨a0, BKind.insertValue0B, [res]⟩
        let l3 := insertBeforeB l2 uid ⟨a1, BKind.insertValue1B, [a0, cmpId]⟩
        let s1 : BState := { instrs := l3, nextId := s.nextId + 3, toErase := s.toErase }
        (Outcome.normal, rauwB s1 v a1)
    | _ => (Outcome.normal, s)

/-- Fold the per-consumer handler over the snapshot of users; a fatal
pattern aborts the run immediately. -/
def processUsersB (res comp cxId : Nat) : List Nat → BState → Outcome × BState
  | [], s => (Outcome.normal, s)
  | uid :: rest, s =>
      match processUserB res comp cxId uid s with
      | (Outcome.fatal, s') => (Outcome.fatal, s')
      | (Outcome.normal, s') => processUsersB res comp cxId rest s'

/-- Erase every instruction marked in `ToErase` (lines 377-380). -/
def eraseMarkedB (s : BState) : BState :=
  { s with instrs := s.instrs.filter (fun i => !(s.toErase.contains i.id)) }

/-- The whole decomposition of one `AtomicCmpXchgInst` (lines 311-380):
insert the `__spirv_AtomicCompareExchange` call before it (the memory-scope
and ordering constant operands are omitted here; the pointer, comparator and
new-value operands are carried over), rewrite every consumer, mark the
original for erasure once its use-list is empty, then erase the marked
instructions. -/
def decomposeCmpxchgB (s : BState) (cxId : Nat) : Outcome × BState :=
  match findB s cxId with
  | none => (Outcome.normal, s)
  | some cx =>
    let comparator := cx.ops.getD 1 0
    let res := s.nextId
    let s1 : BState :=
      { instrs := insertBeforeB s.instrs cxId ⟨res, BKind.atomicB, cx.ops⟩
        nextId := s.nextId + 1
        toErase := s.toErase }
    let userIds := (usersB s1 cxId).map BInstr.id
    match processUsersB res comparator cxId userIds s1 with
    | (Outcome.fatal, s2) => (Outcome.fatal, s2)
    | (Outcome.normal, s2) =>
        let s3 := if (usersB s2 cxId).isEmpty then markEraseB s2 cxId else s2
        (Outcome.normal, eraseMarkedB s3)

/-- A consumer uses the whole composite (rather than a field of it) exactly
when it is not an `extractvalue`. -/
def isWholeValueUseB (u : BInstr) : Bool :=
  match u.kind with
  | BKind.extractB _ => false
  | _ => true

/-- Evaluator for the rewritten graph: the inserted atomic call evaluates to
the runtime value `aRes` returned by the target primitive; `icmpEqB`
evaluates to 1 exactly when its operands are equal. Fuel-bounded. -/
def evalB (s : BState) (aRes : Nat) : Nat → Nat → Option Nat
  | 0, _ => none
  | fuel + 1, v =>
    match findB s v with
    | none => none
    | some i =>
      match i.kind, i.ops with
      | BKind.constB n, _ => some n
      | BKind.atomicB, _ => some aRes
      | BKind.icmpEqB, [x, y] =>
          (evalB s aRes fuel x).bind fun a =>
            (evalB s aRes fuel y).map fun b => if a = b then 1 else 0
      | _, _ => none

/-- Membership in a list is preserved by inserting a new instruction. -/
theorem mem_insertBeforeB {l : List BInstr} {anchor : Nat} {newI : BInstr}
    {i : BInstr} (h : i ∈ l) : i ∈ insertBeforeB l anchor newI := by
  induction l with
  | nil => cases h
  | cons hd tl ih =>
      unfold insertBeforeB
      by_cases hh : hd.id = anchor
      · simp [hh]
        rcases List.mem_cons.mp h with h1 | h1
        · exact Or.inr (Or.inl h1)
        · exact Or.inr (Or.inr h1)
      · simp [hh]
        rcases List.mem_cons.mp h with h1 | h1
        · exact Or.inl h1
        · exact Or.inr (ih h1)

/-- The inserted instruction is a member of the result. -/
theorem self_mem_insertBeforeB (l : List BInstr) (anchor : Nat) (newI : BInstr) :
    newI ∈ insertBeforeB l anchor newI := by
  induction l with
  | nil => simp [insertBeforeB]
  | cons hd tl ih =>
      unfold insertBeforeB
      by_cases hh : hd.id = anchor
      · simp [hh]
      · simp [hh]
        exact Or.inr ih

/-- C3: an unexpected consumer pattern aborts. Any consumer of the composite
that is not an extract of field 0, not an extract of field 1, and not a
whole-value use must be an `extractvalue` with first index outside {0,1},
and the handler hits `llvm_unreachable` (line 357) for it: the outcome is
fatal, and the consumer is neither rewritten nor silently skipped. -/
theorem cmpxchg_unexpected_consumer_aborts
    (res comp cxId uid : Nat) (s : BState) (u : BInstr)
    (hu : findB s uid = some u)
    (h0 : u.kind ≠ BKind.extractB 0) (h1 : u.kind ≠ BKind.extractB 1)
    (hw : isWholeValueUseB u = false) :
    processUserB res comp cxId uid s = (Outcome.fatal, s) := by
  obtain ⟨uid', k, ops⟩ := u
  cases k with
  | extractB n =>
      match n, h0, h1 with
      | 0, h0, _ => exact absurd rfl h0
      | 1, _, h1 => exact absurd rfl h1
      | n + 2, _, _ => simp [processUserB, hu]
  | cmpxchgB => simp [isWholeValueUseB] at hw
  | atomicB => simp [isWholeValueUseB] at hw
  | icmpEqB => simp [isWholeValueUseB] at hw
  | insertValue0B => simp [isWholeValueUseB] at hw
  | insertValue1B => simp [isWholeValueUseB] at hw
  | storeB => simp [isWholeValueUseB] at hw
  | constB n => simp [isWholeValueUseB] at hw
  | otherB => simp [isWholeValueUseB] at hw

/-- Witness for C3: a consumer extracting field 2 is aborted on. -/
theorem cmpxchg_unexpected_consumer_aborts_witness :
    processUserB 6 0 3 4 ⟨[⟨4, BKind.extractB 2, [3]⟩], 5, []⟩
      = (Outcome.fatal, ⟨[⟨4, BKind.extractB 2, [3]⟩], 5, []⟩) :=
  cmpxchg_unexpected_consumer_aborts 6 0 3 4
    ⟨[⟨4, BKind.extractB 2, [3]⟩], 5, []⟩ ⟨4, BKind.extractB 2, [3]⟩
    (by decide) (by decide) (by decide) (by decide)

/-- The C4 scenario: a cmpxchg whose composite is consumed once by an
extract of field 0 and once by an extract of field 1, each extract having a
downstream consumer. Ids: 0 comparator constant `c`, 1 pointer, 2 new
value, 3 the cmpxchg, 4 the field-0 extract, 5 the field-1 extract, 6 a
user of the field-0 extract, 7 a user of the field-1 extract. -/
def cmpxchgTwoExtractState (c nv p : Nat) : BState :=
  { instrs :=
      [ ⟨0, BKind.constB c, []⟩
      , ⟨1, BKind.constB p, []⟩
      , ⟨2, BKind.constB nv, []⟩
      , ⟨3, BKind.cmpxchgB, [1, 0, 2]⟩
      , ⟨4, BKind.extractB 0, [3]⟩
      , ⟨5, BKind.extractB 1, [3]⟩
      , ⟨6, BKind.otherB, [4]⟩
      , ⟨7, BKind.otherB, [5]⟩ ]
    nextId := 8
    toErase := [] }

set_option maxHeartbeats 1000000 in
/-- Running the decomposition on the two-extract scenario, evaluated once:
the atomic call (id 8) replaces the composite, the `icmp eq` (id 9) feeds
the former field-1 consumer, and ids 3, 4, 5 are erased. -/
theorem cmpxchgTwoExtract_run (c nv p : Nat) :
    decomposeCmpxchgB (cmpxchgTwoExtractState c nv p) 3
      = (Outcome.normal,
         ⟨[ ⟨0, BKind.constB c, []⟩, ⟨1, BKind.constB p, []⟩, ⟨2, BKind.constB nv, []⟩,
            ⟨8, BKind.atomicB, [1, 0, 2]⟩, ⟨9, BKind.icmpEqB, [8, 0]⟩,
            ⟨6, BKind.otherB, [8]⟩, ⟨7, BKind.otherB, [9]⟩ ], 10, [4, 5, 3]⟩) := rfl

/-- C4: decomposing the two-extract scenario succeeds; the former user of
the field-0 extract now holds the atomic call's result (id 8) and observes
exactly the returned value `aRes`; the former user of the field-1 extract
now holds the inserted `icmp eq` (id 9) against the comparator and observes
1 exactly when `aRes = c`; both extracts end with empty use-lists, are in
`ToErase`, and are erased. -/
theorem cmpxchg_two_extract_decomposition (aRes c nv p : Nat) :
    (decomposeCmpxchgB (cmpxchgTwoExtractState c nv p) 3).1 = Outcome.normal
      ∧ (findB (decomposeCmpxchgB (cmpxchgTwoExtractState c nv p) 3).2 6).map BInstr.ops
          = some [8]
      ∧ (findB (decomposeCmpxchgB (cmpxchgTwoExtractState c nv p) 3).2 7).map BInstr.ops
          = some [9]
      ∧ findB (decomposeCmpxchgB (cmpxchgTwoExtractState c nv p) 3).2 9
          = some ⟨9, BKind.icmpEqB, [8, 0]⟩
      ∧ evalB (decomposeCmpxchgB (cmpxchgTwoExtractState c nv p) 3).2 aRes 3 8 = some aRes
      ∧ evalB (decomposeCmpxchgB (cmpxchgTwoExtractState c nv p) 3).2 aRes 3 9
          = some (if aRes = c then 1 else 0)
      ∧ usersB (decomposeCmpxchgB (cmpxchgTwoExtractState c nv p) 3).2 4 = []
      ∧ usersB (decomposeCmpxchgB (cmpxchgTwoExtractState c nv p) 3).2 5 = []
      ∧ (decomposeCmpxchgB (cmpxchgTwoExtractState c nv p) 3).2.toErase = [4, 5, 3]
      ∧ findB (decomposeCmpxchgB (cmpxchgTwoExtractState c nv p) 3).2 4 = none
      ∧ findB (decomposeCmpxchgB (cmpxchgTwoExtractState c nv p) 3).2 5 = none := by
  rw [cmpxchgTwoExtract_run]
  refine ⟨rfl, rfl, rfl, rfl, rfl, rfl, rfl, rfl, rfl, rfl, rfl⟩

/-- The C5 scenario state, after the atomic call (id 7) has been inserted:
a cmpxchg (id 4) whose composite is stored verbatim by two different store
instructions (ids 5 and 6, to different pointers). Ids: 0 comparator, 1 and
2 pointers, 3 new value. -/
def cmpxchgStoreState : BState :=
  { instrs :=
      [ ⟨0, BKind.constB 7, []⟩
      , ⟨1, BKind.constB 100, []⟩
      , ⟨2, BKind.constB 200, []⟩
      , ⟨3, BKind.constB 9, []⟩
      , ⟨7, BKind.atomicB, [1, 0, 3]⟩
      , ⟨4, BKind.cmpxchgB, [1, 0, 3]⟩
      , ⟨5, BKind.storeB, [4, 1]⟩
      , ⟨6, BKind.storeB, [4, 2]⟩ ]
    nextId := 8
    toErase := [] }

/-- Counterexample to C5: handling the whole-value consumer at id 5 also
rewrites the OTHER use site (the store at id 6): before the handling its
value operand is the original composite (id 4), afterwards it is the fresh
composite (id 10) built for the store at id 5. The source calls
`Store->getValueOperand()->replaceAllUsesWith(AggStruct)` (line 369), which
substitutes at every use site of the composite, not only at that one. -/
theorem cmpxchg_store_rewrites_other_site :
    ((cmpxchgStoreState.instrs.find? (fun i => i.id == 6)).map BInstr.ops = some [4, 2])
      ∧ (((processUserB 7 0 4 5 cmpxchgStoreState).2.instrs.find?
            (fun i => i.id == 6)).map BInstr.ops = some [10, 2]) := by
  decide

/-- C5 amended: handling a whole-value (store) consumer synthesizes the
equality test (id `s.nextId`), builds the fresh two-field composite
("agg0" at `s.nextId + 1`, "agg1" at `s.nextId + 2`), and substitutes the
"agg1" composite for the store's value operand at EVERY use site of that
value in the state, not only at the store being handled. -/
theorem cmpxchg_store_substitutes_all_uses
    (res comp cxId uid v pp : Nat) (s : BState) (u : BInstr)
    (hu : findB s uid = some u) (hk : u.kind = BKind.storeB)
    (hops : u.ops = [v, pp]) :
    (processUserB res comp cxId uid s).1 = Outcome.normal
      ∧ (⟨s.nextId, BKind.icmpEqB,
            [res, comp].map fun o => if o = v then s.nextId + 2 else o⟩ : BInstr)
          ∈ (processUserB res comp cxId uid s).2.instrs
      ∧ (⟨s.nextId + 2, BKind.insertValue1B,
            [s.nextId + 1, s.nextId].map fun o => if o = v then s.nextId + 2 else o⟩ : BInstr)
          ∈ (processUserB res comp cxId uid s).2.instrs
      ∧ ∀ i ∈ s.instrs, ∃ i' ∈ (processUserB res comp cxId uid s).2.instrs,
          i'.id = i.id ∧ i'.ops = i.ops.map fun o => if o = v then s.nextId + 2 else o := by
  obtain ⟨uid', k, ops⟩ := u
  simp only at hk hops
  subst hk
  subst hops
  simp only [processUserB, hu]
  refine ⟨trivial, ?_, ?_, ?_⟩
  · exact List.mem_map_of_mem _
      (mem_insertBeforeB (mem_insertBeforeB (self_mem_insertBeforeB _ _ _)))
  · exact List.mem_map_of_mem _ (self_mem_insertBeforeB _ _ _)
  · intro i hi
    refine ⟨{ i with ops := i.ops.map fun o => if o = v then s.nextId + 2 else o }, ?_, rfl, rfl⟩
    exact List.mem_map_of_mem _
      (mem_insertBeforeB (mem_insertBeforeB (mem_insertBeforeB hi)))

/-- Witness for the amended C5: in the two-store scenario the handler runs
to a normal outcome. -/
theorem cmpxchg_store_substitutes_all_uses_witness :
    (processUserB 7 0 4 5 cmpxchgStoreState).1 = Outcome.normal :=
  (cmpxchg_store_substitutes_all_uses 7 0 4 5 4 1 cmpxchgStoreState
    ⟨5, BKind.storeB, [4, 1]⟩ (by decide) rfl rfl).1

/- ================= Model C: the module-level pipeline ================= -/

/-- Function and metadata names, as character lists (std::string). -/
abbrev Name := List Char

/-- Shorthand turning a string literal into a `Name`. -/
def nm (s : String) : Name := s.toList

/-- Instruction kinds for the module walk of `regularize` (lines 270-381).
A call carries its callee name, its function-reference arguments (each
tagged with whether it is wrapped in the canonical `void()*` cast), the
constant-ness of a memset's fill-value and length operands
(`isa<Constant>(MSI->getValue())`, `isa<ConstantInt>(MSI->getLength())`),
and the volatility flag (`MSI->isVolatile()`); the latter three fields are
only meaningful when the callee is a memset intrinsic. A binary operator
carries whether it is a `PossiblyExactOperator` and its `exact` flag. -/
inductive MIKind where
  | callK (callee : Name) (fnArgs : List (Bool × Name)) (valC lenC vol : Bool)
  | binK (possiblyExact : Bool) (exact : Bool)
  | otherK
deriving DecidableEq

/-- An instruction: its kind, its metadata (kind name to attachment id),
its tail-call marking, and its no-unwind attribute. -/
structure MInstr where
  kind : MIKind
  md : List (Name × Nat)
  tailCall : Bool
  noUnwind : Bool
deriving DecidableEq

/-- A module function: `body = none` is a bodiless declaration.
`hasFnPtrParam` records whether the signature has a function-pointer-typed
parameter (`hasFunctionPointerArg`, external to this file). -/
structure Func where
  name : Name
  hasFnPtrParam : Bool
  body : Option (List MInstr)
deriving DecidableEq

/-- A module: the ordered function list. -/
structure MModule where
  funcs : List Func
deriving DecidableEq

/-- `Module::getFunction`: first function with the given name. -/
def findFunc (m : MModule) (n : Name) : Option Func :=
  m.funcs.find? fun f => decide (f.name = n)

/-- How many operands of one instruction reference the function named `n`:
the callee slot plus any function-reference arguments. -/
def instrUses (n : Name) (i : MInstr) : Nat :=
  match i.kind with
  | MIKind.callK c args _ _ _ =>
      (if c = n then 1 else 0) + args.countP (fun a => decide (a.2 = n))
  | _ => 0

/-- Uses of the function named `n` from within one function's body. -/
def funcUses (n : Name) (f : Func) : Nat :=
  ((f.body.getD []).map (instrUses n)).sum

/-- The size of the use-list of the function named `n` (`use_empty` is
`useCountByName m n = 0`). -/
def useCountByName (m : MModule) (n : Name) : Nat :=
  (m.funcs.map (funcUses n)).sum

/-- `Function::isIntrinsic`, at the name level: intrinsics are the
`llvm.`-prefixed functions. -/
def isIntrinsicName (n : Name) : Bool := (nm "llvm.").isPrefixOf n

/-- `dyn_cast<MemSetInst>` succeeds exactly for `llvm.memset.*` callees. -/
def isMemsetName (n : Name) : Bool := (nm "llvm.memset.").isPrefixOf n

/-- `getIntrinsicID() == Intrinsic::fshl`, at the name level. -/
def isFshlName (n : Name) : Bool := (nm "llvm.fshl.").isPrefixOf n

/-- `getIntrinsicID() == Intrinsic::umul_with_overflow`, at the name level. -/
def isUmulName (n : Name) : Bool := (nm "llvm.umul.with.overflow.").isPrefixOf n

/-- `lowerLLVMIntrinsicName` (lines 118-125): replace every `.` of the
intrinsic's name by `_`, then prepend `spirv.`. -/
def lowerLLVMIntrinsicName (n : Name) : Name :=
  nm "spirv." ++ n.map fun c => if c = '.' then '_' else c

/-- An instruction with nothing to sanitize, used for synthesized bodies. -/
def cleanInstr : MInstr := ⟨MIKind.otherK, [], false, false⟩

/-- Body installed by `lowerMemset` (lines 156-162): the byte-wise store
loop produced by the external `expandMemSetAsLoop`. Its instruction-level
content is immaterial to the module-level claims; what matters is that it
is nonempty and free of intrinsic calls, metadata and flags. -/
def memsetSynthBody : List MInstr := [cleanInstr, cleanInstr, cleanInstr]

/-- Body installed by `buildFunnelShiftLeftFunc` (lines 166-198); its
bit-level semantics is `buildFunnelShiftLeftFunc` of Model A. -/
def fshlSynthBody : List MInstr :=
  [cleanInstr, cleanInstr, cleanInstr, cleanInstr, cleanInstr, cleanInstr]

/-- Body installed by `buildUMulWithOverflowFunc` (lines 213-237); its
bit-level semantics is `buildUMulWithOverflowFunc` of Model A. -/
def umulSynthBody : List MInstr :=
  [cleanInstr, cleanInstr, cleanInstr, cleanInstr, cleanInstr]

/-- `lowerMemset` (lines 127-164) at the module level: constant fill value
and constant integer length leave everything untouched (lines 128-129);
otherwise derive the name (plus `.volatile` suffix, lines 131-133), reuse
any existing function of that name as-is (lines 135-140), else create it
and synthesize its body (lines 142-162). Returns the new module and the
callee the `memset` call is retargeted to. -/
def lowerMemset (m : MModule) (callee : Name) (valC lenC vol : Bool) :
    MModule × Name :=
  if valC && lenC then (m, callee)
  else
    let fn := lowerLLVMIntrinsicName callee ++ (if vol then nm ".volatile" else [])
    match findFunc m fn with
    | some _ => (m, fn)
    | none => (⟨m.funcs ++ [⟨fn, false, some memsetSynthBody⟩]⟩, fn)

/-- `getOrCreateFunction` (external helper used at lines 207-208, 246-247):
reuse the function of that name if present, else add a declaration. -/
def getOrCreateFunction (m : MModule) (n : Name) : MModule :=
  match findFunc m n with
  | some _ => m
  | none => ⟨m.funcs ++ [⟨n, false, none⟩]⟩

/-- First-match body update (in-place mutation of one `Function`). -/
def updateFuncBody : List Func → Name → List MInstr → List Func
  | [], _, _ => []
  | f :: fs, n, b =>
      if f.name = n then { f with body := some b } :: fs
      else f :: updateFuncBody fs n b

/-- The shared `if (!Func->empty()) return;` guard of the two body builders
(lines 167-168 and 214-215): if the function already has a body, return
without synthesizing; otherwise install the given synthesized body. -/
def buildBodyIfEmpty (m : MModule) (n : Name) (synth : List MInstr) : MModule :=
  match findFunc m n with
  | some f =>
      match f.body with
      | some _ => m
      | none => ⟨updateFuncBody m.funcs n synth⟩
  | none => m

/-- `buildFunnelShiftLeftFunc` (lines 166-198) at the module level. -/
def buildFunnelShiftLeftFuncM (m : MModule) (n : Name) : MModule :=
  buildBodyIfEmpty m n fshlSynthBody

/-- `buildUMulWithOverflowFunc` (lines 213-237) at the module level. -/
def buildUMulWithOverflowFuncM (m : MModule) (n : Name) : MModule :=
  buildBodyIfEmpty m n umulSynthBody

/-- `lowerFunnelShiftLeft` (lines 200-211): get-or-create the derived
function, build its body if absent, and retarget the call. -/
def lowerFunnelShiftLeft (m : MModule) (callee : Name) : MModule × Name :=
  let fn := lowerLLVMIntrinsicName callee
  (buildFunnelShiftLeftFuncM (getOrCreateFunction m fn) fn, fn)

/-- `lowerUMulWithOverflow` (lines 239-250). -/
def lowerUMulWithOverflow (m : MModule) (callee : Name) : MModule × Name :=
  let fn := lowerLLVMIntrinsicName callee
  (buildUMulWithOverflowFuncM (getOrCreateFunction m fn) fn, fn)

/-- The metadata kinds stripped at lines 300-310. -/
def unsupportedMD : List Name := [nm "fpmath", nm "tbaa", nm "range"]

/-- Remove exactly the three unsupported metadata kinds. -/
def stripMD (md : List (Name × Nat)) : List (Name × Nat) :=
  md.filter fun kv => !(unsupportedMD.contains kv.1)

/-- Processing of one instruction during the walk (lines 279-310): clear
the tail-call marking on every call; for calls to intrinsics drop the
no-unwind attribute and dispatch to the three lowerings (retargeting the
call to the derived function); clear the `exact` flag of possibly-exact
binary operators; strip the unsupported metadata kinds from every
instruction. (A direct call's callee `Function` always exists, so
`Call->getCalledFunction()` is its name.) -/
def processInstr (m : MModule) (i : MInstr) : MModule × MInstr :=
  match i.kind with
  | MIKind.callK c args valC lenC vol =>
      let i1 : MInstr := { i with tailCall := false }
      let r :=
        if isIntrinsicName c then
          let i2 : MInstr := { i1 with noUnwind := false }
          if isMemsetName c then
            let r := lowerMemset m c valC lenC vol
            (r.1, { i2 with kind := MIKind.callK r.2 args valC lenC vol })
          else if isFshlName c then
            let r := lowerFunnelShiftLeft m c
            (r.1, { i2 with kind := MIKind.callK r.2 args valC lenC vol })
          else if isUmulName c then
            let r := lowerUMulWithOverflow m c
            (r.1, { i2 with kind := MIKind.callK r.2 args valC lenC vol })
          else (m, i2)
        else (m, i1)
      (r.1, { r.2 with md := stripMD r.2.md })
  | MIKind.binK pe ex =>
      let i1 := if pe && ex then { i with kind := MIKind.binK pe false } else i
      (m, { i1 with md := stripMD i1.md })
  | MIKind.otherK => (m, { i with md := stripMD i.md })

/-- Process a body left to right, threading the module (new functions may
be appended by the lowerings). -/
def processBody (m : MModule) : List MInstr → MModule × List MInstr
  | [] => (m, [])
  | i :: rest =>
      let r := processInstr m i
      let r2 := processBody r.1 rest
      (r2.1, r.2 :: r2.2)

/-- `F->eraseFromParent()`. -/
def removeFunc (m : MModule) (n : Name) : MModule :=
  ⟨m.funcs.filter fun f => !decide (f.name = n)⟩

/-- One iteration of the function loop at lines 270-381: a bodiless
declaration with an empty use-list is erased (lines 272-275); a defined
function has its body processed and written back. -/
def stepFunc (m : MModule) (n : Name) : MModule :=
  match findFunc m n with
  | none => m
  | some f =>
      match f.body with
      | none => if useCountByName m n = 0 then removeFunc m n else m
      | some b =>
          let r := processBody m b
          ⟨updateFuncBody r.1.funcs n r.2⟩

/-- The per-function walk of `regularize` (lines 270-381), visiting the
functions present when the walk starts. Functions appended during the walk
(synthesized helpers and declarations) carry nothing the loop body would
change, so visiting them is a no-op and is elided. -/
def walk (m : MModule) : MModule := (m.funcs.map Func.name).foldl stepFunc m

/-- Modelled from the spec: `eraseUselessFunctions` (called at line 267)
lives outside this file; per §4.1 it removes every Function with no body
and an empty use-list, in a single linear pass. -/
def eraseUselessFunctions (m : MModule) : MModule :=
  ⟨m.funcs.filter fun f => !(f.body.isNone && useCountByName m f.name == 0)⟩

/-- `decorateSPIRVFunction(getName(OC))` (line 392): the canonical symbol
of a builtin opcode. -/
def decorateSPIRVFunction (n : Name) : Name := nm "__spirv_" ++ n

/-- `removeCast` applied to every function-pointer argument (lines
398-403): unwrap the canonical cast, leaving the underlying function
referenced directly; the cast value itself disappears (its erasure at
lines 407-408 is implicit here, since casts live inside the argument). -/
def unwrapFnArgs (args : List (Bool × Name)) : List (Bool × Name) :=
  args.map fun a => (false, a.2)

/-- Rewrite one call site of the builtin `oldN` to the decorated symbol
`newN`, unwrapping its function-pointer arguments (`mutateFunction` at
lines 395-406). -/
def rewriteCallsTo (oldN newN : Name) (i : MInstr) : MInstr :=
  match i.kind with
  | MIKind.callK c args valC lenC vol =>
      if c = oldN then { i with kind := MIKind.callK newN (unwrapFnArgs args) valC lenC vol }
      else i
  | _ => i

/-- Apply an instruction rewrite to every body in the module. -/
def mapBodies (g : MInstr → MInstr) (m : MModule) : MModule :=
  ⟨m.funcs.map fun f => { f with body := f.body.map (List.map g) }⟩

/-- Is this instruction a call whose callee is `n`? -/
def callsTo (i : MInstr) (n : Name) : Bool :=
  match i.kind with
  | MIKind.callK c _ _ _ _ => decide (c = n)
  | _ => false

/-- Does any body contain a call to `n`? -/
def hasCallTo (m : MModule) (n : Name) : Bool :=
  m.funcs.any fun f => (f.body.getD []).any fun i => callsTo i n

/-- `lowerFuncPtr(Function*, Op)` (lines 390-409) for one recorded pair
(builtin name, decorated symbol): if the builtin has call sites, rewrite
every one of them and make sure the decorated symbol exists (as a
declaration, still with a function-pointer parameter after unwrapping). -/
def lowerFuncPtrOne (m : MModule) (p : Name × Name) : MModule :=
  if hasCallTo m p.1 then
    let m1 := mapBodies (rewriteCallsTo p.1 p.2) m
    match findFunc m1 p.2 with
    | some _ => m1
    | none => ⟨m1.funcs ++ [⟨p.2, true, none⟩]⟩
  else m

/-- `lowerFuncPtr(Module*)` (lines 411-423), two-phase: first record every
(builtin, opcode) pair — `oc` is the external `getSPIRVFuncOC` name table
(modelled from the spec: out-of-scope lookup table; `none` is `OpNop`) —
then rewrite the call sites of each recorded pair. -/
def lowerFuncPtr (oc : Name → Option Name) (m : MModule) : MModule :=
  let work := m.funcs.filterMap fun f =>
    if f.hasFnPtrParam then (oc f.name).map fun d => (f.name, decorateSPIRVFunction d)
    else none
  work.foldl lowerFuncPtrOne m

/-- `regularize` (lines 266-386): dead-declaration elimination up front,
function-pointer normalization, then the per-function walk (the
compare-exchange decomposition inside the walk is Model B; the optional
diagnostic snapshot at lines 383-384 has no effect on the module). -/
def regularize (oc : Name → Option Name) (m : MModule) : MModule :=
  walk (lowerFuncPtr oc (eraseUselessFunctions m))

/-- A memset intrinsic name is an intrinsic name. -/
theorem memset_isIntrinsic {c : Name} (h : isMemsetName c = true) :
    isIntrinsicName c = true := by
  simp only [isMemsetName, List.isPrefixOf_iff_prefix] at h
  simp only [isIntrinsicName, List.isPrefixOf_iff_prefix]
  exact List.IsPrefix.trans (by decide) h

/-- C8: a bounded-memory-fill intrinsic call with a constant fill value and
a constant integer length is untouched by the pass: the module gains no
synthesized fill function and the call's callee (indeed its whole call
operand list) is unchanged — `lowerMemset` returns at lines 128-129. -/
theorem memset_const_passthrough (m : MModule) (i : MInstr) (c : Name)
    (args : List (Bool × Name)) (vol : Bool)
    (hk : i.kind = MIKind.callK c args true true vol)
    (hm : isMemsetName c = true) :
    (processInstr m i).1 = m ∧ (processInstr m i).2.kind = i.kind := by
  obtain ⟨k, md, tc, nu⟩ := i
  simp only at hk
  subst hk
  simp [processInstr, memset_isIntrinsic hm, hm, lowerMemset]

/-- Witness for C8: a concrete constant-argument memset call in a module
holding only the intrinsic declaration is passed through. -/
theorem memset_const_passthrough_witness :
    (processInstr ⟨[⟨nm "llvm.memset.p0i8.i64", false, none⟩]⟩
        ⟨MIKind.callK (nm "llvm.memset.p0i8.i64") [] true true false, [], false, false⟩).1
      = ⟨[⟨nm "llvm.memset.p0i8.i64", false, none⟩]⟩ :=
  (memset_const_passthrough ⟨[⟨nm "llvm.memset.p0i8.i64", false, none⟩]⟩
    ⟨MIKind.callK (nm "llvm.memset.p0i8.i64") [] true true false, [], false, false⟩
    (nm "llvm.memset.p0i8.i64") [] false rfl (by decide)).1

/- ============ Name-form and list lemmas for the pipeline ============ -/

/-- Names that the walk appends or retargets to are all `spirv.`-prefixed. -/
theorem spirv_not_intrinsicName (s : Name) :
    isIntrinsicName (nm "spirv." ++ s) = false := rfl

theorem spirv_not_fshlName (s : Name) : isFshlName (nm "spirv." ++ s) = false := rfl

theorem spirv_not_umulName (s : Name) : isUmulName (nm "spirv." ++ s) = false := rfl

theorem spirv_not_memsetName (s : Name) : isMemsetName (nm "spirv." ++ s) = false := rfl

/-- The derived memset symbol (with or without `.volatile`) in `spirv.`-prefixed
form. -/
theorem memset_derived_shape (c : Name) (vol : Bool) :
    lowerLLVMIntrinsicName c ++ (if vol then nm ".volatile" else [])
      = nm "spirv." ++ ((c.map fun ch => if ch = '.' then '_' else ch)
          ++ (if vol then nm ".volatile" else [])) := by
  simp [lowerLLVMIntrinsicName]

/-- The derived fshl/umul symbol in `spirv.`-prefixed form. -/
theorem lowered_name_shape (c : Name) :
    lowerLLVMIntrinsicName c = nm "spirv." ++ (c.map fun ch => if ch = '.' then '_' else ch) :=
  rfl

/-- Module function names are pairwise distinct (an LLVM symbol-table
invariant; maintained by every operation of the pass). -/
def NoDupNames (m : MModule) : Prop := (m.funcs.map Func.name).Nodup

theorem findFunc_append_of_some {m : MModule} {n : Name} {f : Func}
    (h : findFunc m n = some f) (gs : List Func) :
    findFunc ⟨m.funcs ++ gs⟩ n = some f := by
  simp [findFunc] at h ⊢
  simp [List.find?_append, h]

theorem findFunc_mem {m : MModule} {n : Name} {f : Func}
    (h : findFunc m n = some f) : f ∈ m.funcs :=
  List.mem_of_find?_eq_some h

theorem findFunc_name {m : MModule} {n : Name} {f : Func}
    (h : findFunc m n = some f) : f.name = n := by
  have := List.find?_some h
  simpa using this

theorem findFunc_cons_ne {g : Func} {gs : List Func} {n : Name} (h : ¬ g.name = n) :
    findFunc ⟨g :: gs⟩ n = findFunc ⟨gs⟩ n := by
  simp only [findFunc, List.find?_cons, decide_eq_false h]

theorem findFunc_cons_eq {g : Func} {gs : List Func} {n : Name} (h : g.name = n) :
    findFunc ⟨g :: gs⟩ n = some g := by
  simp only [findFunc, List.find?_cons, decide_eq_true h]

theorem findFunc_of_mem_nodup {m : MModule} {f : Func}
    (hnd : NoDupNames m) (hmem : f ∈ m.funcs) : findFunc m f.name = some f := by
  obtain ⟨l⟩ := m
  induction l with
  | nil => cases hmem
  | cons g gs ih =>
      simp only [NoDupNames, List.map_cons, List.nodup_cons] at hnd
      rcases List.mem_cons.mp hmem with h | h
      · subst h
        exact findFunc_cons_eq rfl
      · have hne : ¬ g.name = f.name := by
          intro he
          exact hnd.1 (he ▸ List.mem_map_of_mem Func.name h)
        rw [findFunc_cons_ne hne]
        exact ih hnd.2 h

theorem updateFuncBody_names (l : List Func) (n : Name) (b : List MInstr) :
    (updateFuncBody l n b).map Func.name = l.map Func.name := by
  induction l with
  | nil => rfl
  | cons g gs ih =>
      unfold updateFuncBody
      by_cases h : g.name = n
      · simp [h]
      · simp [h, ih]

theorem findFunc_updateFuncBody_ne {l : List Func} {n n' : Name} {b : List MInstr}
    (h : n' ≠ n) :
    findFunc ⟨updateFuncBody l n b⟩ n' = findFunc ⟨l⟩ n' := by
  induction l with
  | nil => rfl
  | cons g gs ih =>
      unfold updateFuncBody
      by_cases hg : g.name = n
      · have hg' : ¬ g.name = n' := fun he => h (he ▸ hg ▸ rfl)
        rw [if_pos hg]
        rw [findFunc_cons_ne (g := { g with body := some b }) hg', findFunc_cons_ne hg']
      · rw [if_neg hg]
        by_cases hg' : g.name = n'
        · rw [findFunc_cons_eq hg', findFunc_cons_eq hg']
        · rw [findFunc_cons_ne hg', findFunc_cons_ne hg']
          exact ih

theorem findFunc_updateFuncBody_eq {l : List Func} {n : Name} {f : Func} {b : List MInstr}
    (h : findFunc ⟨l⟩ n = some f) :
    findFunc ⟨updateFuncBody l n b⟩ n = some { f with body := some b } := by
  induction l with
  | nil => simp [findFunc] at h
  | cons g gs ih =>
      unfold updateFuncBody
      by_cases hg : g.name = n
      · rw [findFunc_cons_eq hg] at h
        cases h
        rw [if_pos hg]
        exact findFunc_cons_eq hg
      · rw [findFunc_cons_ne hg] at h
        rw [if_neg hg, findFunc_cons_ne hg]
        exact ih h

theorem mem_updateFuncBody {l : List Func} {n : Name} {b : List MInstr} {f : Func}
    (h : f ∈ updateFuncBody l n b) :
    f ∈ l ∨ ∃ g ∈ l, g.name = n ∧ f = { g with body := some b } := by
  induction l with
  | nil => cases h
  | cons g gs ih =>
      unfold updateFuncBody at h
      by_cases hg : g.name = n
      · rw [if_pos hg] at h
        rcases List.mem_cons.mp h with h1 | h1
        · exact Or.inr ⟨g, List.mem_cons_self g gs, hg, h1⟩
        · exact Or.inl (List.mem_cons_of_mem g h1)
      · rw [if_neg hg] at h
        rcases List.mem_cons.mp h with h1 | h1
        · exact Or.inl (h1 ▸ List.mem_cons_self g gs)
        · rcases ih h1 with h2 | ⟨g2, hg2, he, hf⟩
          · exact Or.inl (List.mem_cons_of_mem g h2)
          · exact Or.inr ⟨g2, List.mem_cons_of_mem g hg2, he, hf⟩

theorem findFunc_removeFunc_ne {m : MModule} {n n' : Name} (h : n' ≠ n) :
    findFunc (removeFunc m n) n' = findFunc m n' := by
  obtain ⟨l⟩ := m
  induction l with
  | nil => rfl
  | cons g gs ih =>
      simp only [removeFunc, List.filter_cons] at ih ⊢
      by_cases hg : g.name = n
      · have hg' : ¬ g.name = n' := fun he => h (he ▸ hg ▸ rfl)
        rw [if_neg (by simp [hg])]
        rw [findFunc_cons_ne hg']
        exact ih
      · rw [if_pos (by simp [hg])]
        by_cases hg' : g.name = n'
        · rw [findFunc_cons_eq hg', findFunc_cons_eq hg']
        · rw [findFunc_cons_ne hg', findFunc_cons_ne hg']
          exact ih


/- ===================== Metadata lemmas (C9) ===================== -/

theorem lookup_stripMD_bad {md : List (Name × Nat)} {k : Name}
    (hk : k ∈ unsupportedMD) : (stripMD md).lookup k = none := by
  induction md with
  | nil => rfl
  | cons kv rest ih =>
      obtain ⟨k1, v1⟩ := kv
      rw [stripMD, List.filter_cons]
      by_cases hc : k1 ∈ unsupportedMD
      · rw [if_neg (by simpa [List.elem_iff] using hc)]
        exact ih
      · rw [if_pos (by simpa [List.elem_iff] using hc)]
        have hne : (k == k1) = false := by
          simp only [beq_eq_false_iff_ne, ne_eq]
          exact fun he => hc (he ▸ hk)
        simp only [List.lookup, hne]
        exact ih

theorem lookup_stripMD_good {md : List (Name × Nat)} {k : Name}
    (hk : k ∉ unsupportedMD) : (stripMD md).lookup k = md.lookup k := by
  induction md with
  | nil => rfl
  | cons kv rest ih =>
      obtain ⟨k1, v1⟩ := kv
      rw [stripMD, List.filter_cons]
      by_cases hc : k1 ∈ unsupportedMD
      · have hne : (k == k1) = false := by
          simp only [beq_eq_false_iff_ne, ne_eq]
          exact fun he => hk (he ▸ hc)
        rw [if_neg (by simpa [List.elem_iff] using hc)]
        show List.lookup k (stripMD rest) = List.lookup k ((k1, v1) :: rest)
        rw [ih]
        simp only [List.lookup, hne]
      · rw [if_pos (by simpa [List.elem_iff] using hc)]
        by_cases he : (k == k1) = true
        · simp only [List.lookup, he]
        · simp only [List.lookup, Bool.of_not_eq_true he]
          exact ih

theorem processInstr_md (m : MModule) (i : MInstr) :
    ((processInstr m i).2).md = stripMD i.md := by
  obtain ⟨k, md, tc, nu⟩ := i
  cases k with
  | callK c args valC lenC vol =>
      simp only [processInstr]
      by_cases h1 : isIntrinsicName c = true
      · simp only [h1, if_pos trivial]
        by_cases h2 : isMemsetName c = true
        · simp [h2]
        · simp only [Bool.of_not_eq_true h2, Bool.false_eq_true, if_neg, ite_false]
          by_cases h3 : isFshlName c = true
          · simp [h3]
          · simp only [Bool.of_not_eq_true h3, Bool.false_eq_true, ite_false]
            by_cases h4 : isUmulName c = true
            · simp [h4]
            · simp [Bool.of_not_eq_true h4]
      · simp [Bool.of_not_eq_true h1]
  | binK pe ex =>
      simp only [processInstr]
      by_cases h : (pe && ex) = true
      · simp [h]
      · simp [Bool.of_not_eq_true h]
  | otherK => rfl

theorem processBody_mds (m : MModule) (b : List MInstr) :
    ((processBody m b).2).map MInstr.md = b.map fun i => stripMD i.md := by
  induction b generalizing m with
  | nil => rfl
  | cons i rest ih =>
      simp only [processBody, List.map_cons]
      rw [processInstr_md, ih]

theorem processBody_length (m : MModule) (b : List MInstr) :
    ((processBody m b).2).length = b.length := by
  have := processBody_mds m b
  have h1 := congrArg List.length this
  simpa using h1

/- ============ Effects of the walk on the function list ============ -/

/-- A body is one of the three synthesized bodies. -/
def SynthBody (b : List MInstr) : Prop :=
  b = memsetSynthBody ∨ b = fshlSynthBody ∨ b = umulSynthBody

/-- No metadata of the unsupported kinds anywhere in a function's body. -/
def CleanFunc (f : Func) : Prop :=
  ∀ b, f.body = some b → ∀ i ∈ b, ∀ k ∈ unsupportedMD, i.md.lookup k = none

/-- No instruction of `f` references the function named `k`. -/
def ZeroFuncUses (f : Func) : Prop := ∀ k, funcUses k f = 0

/-- The possible effects of one lowering step on the function list: nothing,
appending a fresh `spirv.`-named function (with no body or a synthesized
one), or installing a synthesized body into a bodiless `spirv.`-named
function. -/
def WalkEffect (m m' : MModule) : Prop :=
  m' = m
  ∨ (∃ fn bd, findFunc m fn = none ∧ (∃ s, fn = nm "spirv." ++ s)
      ∧ (bd = none ∨ ∃ b, bd = some b ∧ SynthBody b)
      ∧ m' = ⟨m.funcs ++ [⟨fn, false, bd⟩]⟩)
  ∨ (∃ fn f synth, findFunc m fn = some f ∧ f.body = none
      ∧ (∃ s, fn = nm "spirv." ++ s) ∧ SynthBody synth
      ∧ m' = ⟨updateFuncBody m.funcs fn synth⟩)

theorem synthBody_clean {b : List MInstr} (h : SynthBody b) :
    ∀ i ∈ b, ∀ k ∈ unsupportedMD, i.md.lookup k = none := by
  rcases h with h | h | h <;> subst h <;>
    (intro i hi k _
     simp only [memsetSynthBody, fshlSynthBody, umulSynthBody, cleanInstr,
       List.mem_cons, List.not_mem_nil, or_false] at hi
     rcases hi with h | h | h | h | h | h <;> first | (subst h; rfl) | (cases h; rfl) | rfl)

theorem synthBody_zeroUses {b : List MInstr} (h : SynthBody b) (k : Name) :
    (b.map (instrUses k)).sum = 0 := by
  rcases h with h | h | h <;> subst h <;> rfl

theorem walkEffect_lowerMemset (m : MModule) (c : Name) (valC lenC vol : Bool) :
    WalkEffect m (lowerMemset m c valC lenC vol).1 := by
  unfold lowerMemset
  by_cases h : (valC && lenC) = true
  · simp only [h, if_pos trivial]
    exact Or.inl rfl
  · simp only [Bool.of_not_eq_true h, Bool.false_eq_true, ite_false]
    cases hf : findFunc m (lowerLLVMIntrinsicName c ++ (if vol then nm ".volatile" else [])) with
    | some f => exact Or.inl rfl
    | none =>
        refine Or.inr (Or.inl ?_)
        exact ⟨_, _, hf, ⟨_, memset_derived_shape c vol⟩,
          Or.inr ⟨_, rfl, Or.inl rfl⟩, rfl⟩

theorem walkEffect_getOrCreate (m : MModule) (n : Name) (hs : ∃ s, n = nm "spirv." ++ s) :
    WalkEffect m (getOrCreateFunction m n) := by
  unfold getOrCreateFunction
  cases hf : findFunc m n with
  | some f => exact Or.inl rfl
  | none => exact Or.inr (Or.inl ⟨n, none, hf, hs, Or.inl rfl, rfl⟩)

theorem walkEffect_buildBodyIfEmpty (m : MModule) (n : Name) (synth : List MInstr)
    (hs : ∃ s, n = nm "spirv." ++ s) (hsynth : SynthBody synth) :
    WalkEffect m (buildBodyIfEmpty m n synth) := by
  cases hf : findFunc m n with
  | none =>
      unfold buildBodyIfEmpty
      rw [hf]
      exact Or.inl rfl
  | some f =>
      have hred : buildBodyIfEmpty m n synth
          = match f.body with
            | some _ => m
            | none => ⟨updateFuncBody m.funcs n synth⟩ := by
        unfold buildBodyIfEmpty
        rw [hf]
      cases hb : f.body with
      | some b =>
          rw [hred, hb]
          exact Or.inl rfl
      | none =>
          rw [hred, hb]
          exact Or.inr (Or.inr ⟨n, f, synth, hf, hb, hs, hsynth, rfl⟩)

/-- A property preserved by every `WalkEffect` step is preserved by
`processInstr`'s module effect. -/
theorem processInstr_pres {P : MModule → Prop}
    (hstep : ∀ m m', WalkEffect m m' → P m → P m')
    {m : MModule} (i : MInstr) (h : P m) : P (processInstr m i).1 := by
  obtain ⟨k, md, tc, nu⟩ := i
  cases k with
  | callK c args valC lenC vol =>
      simp only [processInstr]
      by_cases h1 : isIntrinsicName c = true
      · simp only [h1, if_pos trivial]
        by_cases h2 : isMemsetName c = true
        · simp only [h2, if_pos trivial]
          exact hstep _ _ (walkEffect_lowerMemset m c valC lenC vol) h
        · simp only [Bool.of_not_eq_true h2, Bool.false_eq_true, ite_false]
          by_cases h3 : isFshlName c = true
          · simp only [h3, if_pos trivial]
            refine hstep _ _
              (walkEffect_buildBodyIfEmpty _ _ _ ⟨_, lowered_name_shape c⟩ (Or.inr (Or.inl rfl)))
              (hstep _ _ (walkEffect_getOrCreate m _ ⟨_, lowered_name_shape c⟩) h)
          · simp only [Bool.of_not_eq_true h3, Bool.false_eq_true, ite_false]
            by_cases h4 : isUmulName c = true
            · simp only [h4, if_pos trivial]
              refine hstep _ _
                (walkEffect_buildBodyIfEmpty _ _ _ ⟨_, lowered_name_shape c⟩ (Or.inr (Or.inr rfl)))
                (hstep _ _ (walkEffect_getOrCreate m _ ⟨_, lowered_name_shape c⟩) h)
            · simpa [Bool.of_not_eq_true h4] using h
      · simpa [Bool.of_not_eq_true h1] using h
  | binK pe ex => simpa [processInstr] using h
  | otherK => simpa [processInstr] using h

theorem processBody_pres {P : MModule → Prop}
    (hstep : ∀ m m', WalkEffect m m' → P m → P m')
    {m : MModule} (b : List MInstr) (h : P m) : P (processBody m b).1 := by
  induction b generalizing m with
  | nil => exact h
  | cons i rest ih =>
      simp only [processBody]
      exact ih (processInstr_pres hstep i h)

theorem findFunc_none_not_mem {m : MModule} {n : Name} (h : findFunc m n = none) :
    ∀ f ∈ m.funcs, ¬ f.name = n := by
  intro f hf
  have := List.find?_eq_none.mp h f hf
  simpa using this

theorem walkEffect_findFunc_defined {m m' : MModule} {n : Name} {f : Func}
    (hw : WalkEffect m m') (hfind : findFunc m n = some f) (hb : f.body.isSome = true) :
    findFunc m' n = some f := by
  rcases hw with h | ⟨fn, bd, hfn, _, _, h⟩ | ⟨fn, g, synth, hfn, hgb, _, _, h⟩
  · rw [h]; exact hfind
  · subst h
    exact findFunc_append_of_some hfind _
  · subst h
    by_cases he : n = fn
    · subst he
      rw [hfind] at hfn
      cases hfn
      rw [hgb] at hb
      cases hb
    · rw [findFunc_updateFuncBody_ne he]
      exact hfind

theorem walkEffect_findFunc_nonspirv {m m' : MModule} {n : Name}
    (hw : WalkEffect m m') (hs : ∀ s, n ≠ nm "spirv." ++ s) :
    findFunc m' n = findFunc m n := by
  rcases hw with h | ⟨fn, bd, hfn, ⟨s, hsp⟩, _, h⟩ | ⟨fn, g, synth, hfn, hgb, ⟨s, hsp⟩, _, h⟩
  · rw [h]
  · subst h
    have hne : n ≠ fn := fun he => hs s (he.trans hsp)
    cases hf : findFunc m n with
    | some f => exact findFunc_append_of_some hf _
    | none =>
        have hne2 : ¬ ((⟨fn, false, bd⟩ : Func).name = n) := fun he => hne he.symm
        simp only [findFunc, List.find?_append] at hf ⊢
        rw [hf]
        simp [List.find?_cons, decide_eq_false hne2]
  · subst h
    have hne : n ≠ fn := fun he => hs s (he.trans hsp)
    exact findFunc_updateFuncBody_ne hne

theorem walkEffect_noDup {m m' : MModule} (hw : WalkEffect m m')
    (h : NoDupNames m) : NoDupNames m' := by
  rcases hw with heq | ⟨fn, bd, hfn, _, _, heq⟩ | ⟨fn, g, synth, hfn, hgb, _, _, heq⟩
  · rw [heq]; exact h
  · subst heq
    simp only [NoDupNames, List.map_append, List.map_cons, List.map_nil] at h ⊢
    rw [List.nodup_append]
    refine ⟨h, List.nodup_singleton _, ?_⟩
    intro x hx hx'
    simp only [List.mem_singleton] at hx'
    subst hx'
    obtain ⟨f, hf, hfe⟩ := List.mem_map.mp hx
    exact findFunc_none_not_mem hfn f hf hfe
  · subst heq
    simpa only [NoDupNames, updateFuncBody_names] using h

theorem walkEffect_mem {m m' : MModule} {f : Func} (hw : WalkEffect m m')
    (h : f ∈ m'.funcs) :
    f ∈ m.funcs ∨ (∀ b, f.body = some b → SynthBody b) := by
  rcases hw with heq | ⟨fn, bd, hfn, _, hbd, heq⟩ | ⟨fn, g, synth, hfn, hgb, _, hsynth, heq⟩
  · rw [heq] at h; exact Or.inl h
  · subst heq
    rcases List.mem_append.mp h with h1 | h1
    · exact Or.inl h1
    · simp only [List.mem_singleton] at h1
      subst h1
      refine Or.inr fun b hb => ?_
      rcases hbd with hn | ⟨b', hb', hs⟩
      · simp only [hn] at hb
        cases hb
      · simp only [hb'] at hb
        cases hb
        exact hs
  · subst heq
    rcases mem_updateFuncBody h with h1 | ⟨g2, hg2, hge, hfe⟩
    · exact Or.inl h1
    · subst hfe
      exact Or.inr fun b hb => by
        simp only at hb
        cases hb
        exact hsynth

/-- Functions the walk appends or fills carry only clean, reference-free
synthesized bodies. -/
theorem walkEffect_new_clean {f : Func} (h : ∀ b, f.body = some b → SynthBody b) :
    CleanFunc f ∧ ZeroFuncUses f := by
  constructor
  · intro b hb
    exact synthBody_clean (h b hb)
  · intro k
    cases hb : f.body with
    | none => simp [funcUses, hb]
    | some b =>
        have := synthBody_zeroUses (h b hb) k
        simpa [funcUses, hb] using this

/-- No function of the module references the function named `k`. -/
def ZeroUses (m : MModule) (k : Name) : Prop := ∀ f ∈ m.funcs, funcUses k f = 0

theorem walkEffect_zeroUses {m m' : MModule} {k : Name} (hw : WalkEffect m m')
    (h : ZeroUses m k) : ZeroUses m' k := by
  intro f hf
  rcases walkEffect_mem hw hf with h1 | h1
  · exact h f h1
  · exact (walkEffect_new_clean h1).2 k

theorem useCount_zero_iff {m : MModule} {k : Name} :
    useCountByName m k = 0 ↔ ZeroUses m k := by
  unfold useCountByName ZeroUses
  rw [List.sum_eq_zero_iff]
  constructor
  · intro h f hf
    exact h _ (List.mem_map_of_mem _ hf)
  · intro h x hx
    obtain ⟨f, hf, he⟩ := List.mem_map.mp hx
    exact he ▸ h f hf

theorem instrUses_zero_parts {k c : Name} {args : List (Bool × Name)}
    {valC lenC vol : Bool} {md : List (Name × Nat)} {tc nu : Bool}
    (h : instrUses k ⟨MIKind.callK c args valC lenC vol, md, tc, nu⟩ = 0) :
    ¬ c = k ∧ args.countP (fun a => decide (a.2 = k)) = 0 := by
  simp only [instrUses] at h
  rcases Nat.add_eq_zero.mp h with ⟨h1, h2⟩
  refine ⟨fun he => ?_, h2⟩
  rw [if_pos he] at h1
  cases h1

theorem instrUses_processInstr {m : MModule} {i : MInstr} {k : Name}
    (hs : ∀ s, k ≠ nm "spirv." ++ s) (h : instrUses k i = 0) :
    instrUses k (processInstr m i).2 = 0 := by
  obtain ⟨kind, md, tc, nu⟩ := i
  cases kind with
  | callK c args valC lenC vol =>
      obtain ⟨hc, hargs⟩ := instrUses_zero_parts h
      have hfn1 : ¬ (lowerLLVMIntrinsicName c ++ (if vol then nm ".volatile" else [])) = k := by
        intro he
        exact hs _ (he.symm.trans (memset_derived_shape c vol))
      have hfn2 : ¬ lowerLLVMIntrinsicName c = k := by
        intro he
        exact hs _ (he.symm.trans (lowered_name_shape c))
      simp only [processInstr]
      by_cases h1 : isIntrinsicName c = true
      · simp only [h1, if_pos trivial]
        by_cases h2 : isMemsetName c = true
        · simp only [h2, if_pos trivial]
          unfold lowerMemset
          by_cases hcl : (valC && lenC) = true
          · simp [hcl, instrUses, hc, hargs]
          · simp only [Bool.of_not_eq_true hcl, Bool.false_eq_true, ite_false]
            cases findFunc m (lowerLLVMIntrinsicName c ++ (if vol then nm ".volatile" else [])) with
            | some f => simp [instrUses, hargs, if_neg hfn1]
            | none => simp [instrUses, hargs, if_neg hfn1]
        · simp only [Bool.of_not_eq_true h2, Bool.false_eq_true, ite_false]
          by_cases h3 : isFshlName c = true
          · simp [h3, lowerFunnelShiftLeft, instrUses, hargs, if_neg hfn2]
          · simp only [Bool.of_not_eq_true h3, Bool.false_eq_true, ite_false]
            by_cases h4 : isUmulName c = true
            · simp [h4, lowerUMulWithOverflow, instrUses, hargs, if_neg hfn2]
            · simp [Bool.of_not_eq_true h4, instrUses, hc, hargs]
      · simp [Bool.of_not_eq_true h1, instrUses, hc, hargs]
  | binK pe ex =>
      by_cases hb : (pe && ex) = true <;> simp [processInstr, hb, instrUses]
  | otherK => simp [processInstr, instrUses]

/- ===================== stepFunc characterization ===================== -/

theorem stepFunc_none {m : MModule} {n : Name} (h : findFunc m n = none) :
    stepFunc m n = m := by
  unfold stepFunc
  rw [h]

theorem stepFunc_some_red {m : MModule} {n : Name} {f : Func}
    (h : findFunc m n = some f) :
    stepFunc m n
      = match f.body with
        | none => if useCountByName m n = 0 then removeFunc m n else m
        | some b => ⟨updateFuncBody (processBody m b).1.funcs n (processBody m b).2⟩ := by
  unfold stepFunc
  rw [h]

theorem stepFunc_decl_kept {m : MModule} {n : Name} {f : Func}
    (h : findFunc m n = some f) (hb : f.body = none) (hc : ¬ useCountByName m n = 0) :
    stepFunc m n = m := by
  rw [stepFunc_some_red h, hb, if_neg hc]

theorem stepFunc_decl_removed {m : MModule} {n : Name} {f : Func}
    (h : findFunc m n = some f) (hb : f.body = none) (hc : useCountByName m n = 0) :
    stepFunc m n = removeFunc m n := by
  rw [stepFunc_some_red h, hb, if_pos hc]

theorem stepFunc_defined {m : MModule} {n : Name} {f : Func} {b : List MInstr}
    (h : findFunc m n = some f) (hb : f.body = some b) :
    stepFunc m n = ⟨updateFuncBody (processBody m b).1.funcs n (processBody m b).2⟩ := by
  rw [stepFunc_some_red h, hb]

theorem removeFunc_absent {m : MModule} {n : Name} :
    ∀ f ∈ (removeFunc m n).funcs, ¬ f.name = n := by
  intro f hf
  have := List.of_mem_filter hf
  simpa using this

theorem mem_removeFunc {m : MModule} {n : Name} {f : Func}
    (h : f ∈ (removeFunc m n).funcs) : f ∈ m.funcs :=
  List.mem_of_mem_filter h

/-- `stepFunc` on another function's name never changes what a
non-`spirv.`-named lookup returns. -/
theorem stepFunc_findFunc_nonspirv {m : MModule} {n n' : Name}
    (hne : n ≠ n') (hs : ∀ s, n ≠ nm "spirv." ++ s) :
    findFunc (stepFunc m n') n = findFunc m n := by
  cases hf : findFunc m n' with
  | none => rw [stepFunc_none hf]
  | some f =>
      cases hb : f.body with
      | none =>
          by_cases hc : useCountByName m n' = 0
          · rw [stepFunc_decl_removed hf hb hc]
            exact findFunc_removeFunc_ne hne
          · rw [stepFunc_decl_kept hf hb hc]
      | some b =>
          rw [stepFunc_defined hf hb]
          have h1 : findFunc (processBody m b).1 n = findFunc m n :=
            processBody_pres (P := fun m' => findFunc m' n = findFunc m n)
              (fun _ _ hw h => ((walkEffect_findFunc_nonspirv hw hs).trans h)) b rfl
          calc findFunc ⟨updateFuncBody (processBody m b).1.funcs n' (processBody m b).2⟩ n
              = findFunc (processBody m b).1 n := findFunc_updateFuncBody_ne hne
            _ = findFunc m n := h1

theorem walkEffect_absent {m m' : MModule} {k : Name} (hw : WalkEffect m m')
    (hs : ∀ s, k ≠ nm "spirv." ++ s)
    (h : ∀ f ∈ m.funcs, ¬ f.name = k) : ∀ f ∈ m'.funcs, ¬ f.name = k := by
  rcases hw with heq | ⟨fn, bd, hfn, ⟨s, hsp⟩, _, heq⟩ | ⟨fn, g, synth, hfn, hgb, _, _, heq⟩
  · rw [heq]; exact h
  · subst heq
    intro f hf
    rcases List.mem_append.mp hf with h1 | h1
    · exact h f h1
    · simp only [List.mem_singleton] at h1
      subst h1
      exact fun he => hs s (he ▸ hsp)
  · subst heq
    intro f hf
    rcases mem_updateFuncBody hf with h1 | ⟨g2, hg2, _, hfe⟩
    · exact h f h1
    · subst hfe
      exact h g2 hg2

theorem stepFunc_absent {m : MModule} {n' k : Name}
    (hs : ∀ s, k ≠ nm "spirv." ++ s)
    (h : ∀ f ∈ m.funcs, ¬ f.name = k) : ∀ f ∈ (stepFunc m n').funcs, ¬ f.name = k := by
  cases hf : findFunc m n' with
  | none => rw [stepFunc_none hf]; exact h
  | some f =>
      cases hb : f.body with
      | none =>
          by_cases hc : useCountByName m n' = 0
          · rw [stepFunc_decl_removed hf hb hc]
            exact fun g hg => h g (mem_removeFunc hg)
          · rw [stepFunc_decl_kept hf hb hc]; exact h
      | some b =>
          rw [stepFunc_defined hf hb]
          have h1 : ∀ g ∈ (processBody m b).1.funcs, ¬ g.name = k :=
            processBody_pres (P := fun m' => ∀ g ∈ m'.funcs, ¬ g.name = k)
              (fun _ _ hw hp => walkEffect_absent hw hs hp) b h
          intro g hg
          rcases mem_updateFuncBody hg with h2 | ⟨g2, hg2, _, hfe⟩
          · exact h1 g h2
          · subst hfe
            exact h1 g2 hg2

theorem processBody_instrUses {m : MModule} {b : List MInstr} {k : Name}
    (hs : ∀ s, k ≠ nm "spirv." ++ s)
    (h : ∀ i ∈ b, instrUses k i = 0) :
    ∀ i ∈ (processBody m b).2, instrUses k i = 0 := by
  induction b generalizing m with
  | nil => intro i hi; cases hi
  | cons j rest ih =>
      intro i hi
      simp only [processBody] at hi
      rcases List.mem_cons.mp hi with h1 | h1
      · subst h1
        exact instrUses_processInstr hs (h j (List.mem_cons_self j rest))
      · exact ih (fun x hx => h x (List.mem_cons_of_mem j hx)) _ h1

theorem funcUses_eq_zero_of_all {k : Name} {f : Func} {b : List MInstr}
    (hb : f.body = some b) (h : ∀ i ∈ b, instrUses k i = 0) : funcUses k f = 0 := by
  unfold funcUses
  rw [hb]
  simp only [Option.getD_some]
  rw [List.sum_eq_zero_iff]
  intro x hx
  obtain ⟨i, hi, he⟩ := List.mem_map.mp hx
  exact he ▸ h i hi

theorem all_instrUses_of_funcUses {k : Name} {f : Func} {b : List MInstr}
    (hb : f.body = some b) (h : funcUses k f = 0) : ∀ i ∈ b, instrUses k i = 0 := by
  unfold funcUses at h
  rw [hb] at h
  simp only [Option.getD_some] at h
  rw [List.sum_eq_zero_iff] at h
  intro i hi
  exact h _ (List.mem_map_of_mem _ hi)

theorem stepFunc_zeroUses {m : MModule} {n' k : Name}
    (hs : ∀ s, k ≠ nm "spirv." ++ s) (h : ZeroUses m k) : ZeroUses (stepFunc m n') k := by
  cases hf : findFunc m n' with
  | none => rw [stepFunc_none hf]; exact h
  | some f =>
      cases hb : f.body with
      | none =>
          by_cases hc : useCountByName m n' = 0
          · rw [stepFunc_decl_removed hf hb hc]
            exact fun g hg => h g (mem_removeFunc hg)
          · rw [stepFunc_decl_kept hf hb hc]; exact h
      | some b =>
          rw [stepFunc_defined hf hb]
          have hm2 : ZeroUses (processBody m b).1 k :=
            processBody_pres (P := fun m' => ZeroUses m' k)
              (fun _ _ hw hp => walkEffect_zeroUses hw hp) b h
          have hbz : ∀ i ∈ b, instrUses k i = 0 :=
            all_instrUses_of_funcUses hb (h f (findFunc_mem hf))
          have hproc : ∀ i ∈ (processBody m b).2, instrUses k i = 0 :=
            processBody_instrUses hs hbz
          intro g hg
          rcases mem_updateFuncBody hg with h2 | ⟨g2, hg2, _, hfe⟩
          · exact hm2 g h2
          · subst hfe
            exact funcUses_eq_zero_of_all rfl hproc

theorem stepFunc_noDup {m : MModule} {n' : Name} (h : NoDupNames m) :
    NoDupNames (stepFunc m n') := by
  cases hf : findFunc m n' with
  | none => rw [stepFunc_none hf]; exact h
  | some f =>
      cases hb : f.body with
      | none =>
          by_cases hc : useCountByName m n' = 0
          · rw [stepFunc_decl_removed hf hb hc]
            exact (List.Sublist.map Func.name (List.filter_sublist _)).nodup h
          · rw [stepFunc_decl_kept hf hb hc]; exact h
      | some b =>
          rw [stepFunc_defined hf hb]
          have hm2 : NoDupNames (processBody m b).1 :=
            processBody_pres (P := NoDupNames)
              (fun _ _ hw hp => walkEffect_noDup hw hp) b h
          simpa only [NoDupNames, updateFuncBody_names] using hm2

theorem foldl_stepFunc_pres_of {P : MModule → Prop} (names : List Name)
    (hstep : ∀ m n, n ∈ names → P m → P (stepFunc m n)) :
    ∀ m, P m → P (names.foldl stepFunc m) := by
  induction names with
  | nil => exact fun m h => h
  | cons n rest ih =>
      intro m h
      simp only [List.foldl_cons]
      exact ih (fun m' n' hn' => hstep m' n' (List.mem_cons_of_mem n hn'))
        _ (hstep m n (List.mem_cons_self n rest) h)

/-- C10: the dead-declaration elimination runs a second time inside the
per-function walk (lines 272-275), after `eraseUselessFunctions` (line 267)
and the function-pointer normalization (line 268): any bodiless declaration
whose use-list is empty when the walk starts — for example because the
normalizer retargeted its last call site — is gone from the final module.
(`d.name` not being a derived `spirv.` symbol rules out the walk itself
re-creating a function of that name.) -/
theorem dead_decl_removed (oc : Name → Option Name) (m : MModule) (d : Func)
    (hmem : d ∈ (lowerFuncPtr oc (eraseUselessFunctions m)).funcs)
    (hdecl : d.body = none)
    (hND : NoDupNames (lowerFuncPtr oc (eraseUselessFunctions m)))
    (hunused : useCountByName (lowerFuncPtr oc (eraseUselessFunctions m)) d.name = 0)
    (hs : ∀ s, d.name ≠ nm "spirv." ++ s) :
    ∀ f ∈ (regularize oc m).funcs, ¬ f.name = d.name := by
  have hw : regularize oc m = walk (lowerFuncPtr oc (eraseUselessFunctions m)) := rfl
  rw [hw]
  generalize hm2 : lowerFuncPtr oc (eraseUselessFunctions m) = m2 at hmem hND hunused
  unfold walk
  have hdn : d.name ∈ m2.funcs.map Func.name := List.mem_map_of_mem _ hmem
  obtain ⟨l₁, l₂, hsplit⟩ := List.append_of_mem hdn
  have hnd2 : (l₁ ++ d.name :: l₂).Nodup := by
    rw [← hsplit]
    exact hND
  have hnotl₁ : d.name ∉ l₁ := by
    intro hin
    exact (List.nodup_append.mp hnd2).2.2 hin (List.mem_cons_self _ _)
  have hnotl₂ : d.name ∉ l₂ :=
    (List.nodup_cons.mp (List.nodup_append.mp hnd2).2.1).1
  rw [hsplit, List.foldl_append]
  have hfind : findFunc m2 d.name = some d := findFunc_of_mem_nodup hND hmem
  have hphase1 :
      findFunc (l₁.foldl stepFunc m2) d.name = some d
        ∧ ZeroUses (l₁.foldl stepFunc m2) d.name := by
    refine foldl_stepFunc_pres_of
      (P := fun mm => findFunc mm d.name = some d ∧ ZeroUses mm d.name) l₁
      (fun mm n hn hp => ?_) m2 ⟨hfind, useCount_zero_iff.mp hunused⟩
    have hne : d.name ≠ n := fun he => hnotl₁ (he ▸ hn)
    exact ⟨(stepFunc_findFunc_nonspirv hne hs).trans hp.1, stepFunc_zeroUses hs hp.2⟩
  simp only [List.foldl_cons]
  refine foldl_stepFunc_pres_of
    (P := fun mm => ∀ f ∈ mm.funcs, ¬ f.name = d.name) l₂
    (fun mm n _ hp => stepFunc_absent hs hp) _ ?_
  rw [stepFunc_decl_removed hphase1.1 hdecl (useCount_zero_iff.mpr hphase1.2)]
  exact removeFunc_absent

/-- Witness module for C10: `bi` is a builtin declaration with a
function-pointer parameter whose only call site (in `f`, passing `g`
through the canonical cast) is retargeted by the normalizer, emptying
`bi`'s use-list after the initial elimination already ran. -/
def mod10 : MModule :=
  ⟨[ ⟨nm "bi", true, none⟩,
     ⟨nm "f", false,
       some [⟨MIKind.callK (nm "bi") [(true, nm "g")] false false false, [], false, false⟩]⟩,
     ⟨nm "g", false, some [cleanInstr]⟩ ]⟩

/-- Witness opcode table for C10: `bi` maps to builtin symbol `BI`. -/
def oc10 : Name → Option Name :=
  fun n => if n = nm "bi" then some (nm "BI") else none

/-- Witness for C10: after the whole pass the declaration `bi` is gone. -/
theorem dead_decl_removed_witness :
    findFunc (regularize oc10 mod10) (nm "bi") = none := by
  have h := dead_decl_removed oc10 mod10 ⟨nm "bi", true, none⟩
    (by decide) rfl
    (by
      show ((lowerFuncPtr oc10 (eraseUselessFunctions mod10)).funcs.map Func.name).Nodup
      decide)
    (by decide)
    (by
      intro s hh
      have h' : ('b' :: 'i' :: List.nil) = 's' :: 'p' :: 'i' :: 'r' :: 'v' :: '.' :: s := hh
      injection h' with h1 _
      exact absurd h1 (by decide))
  exact List.find?_eq_none.mpr fun f hf => by simpa using h f hf

/- ===================== Walk lemmas for C9 ===================== -/

theorem stepFunc_findFunc_defined {m : MModule} {n n' : Name} {f : Func}
    (hne : n ≠ n') (h : findFunc m n = some f) (hb : f.body.isSome = true) :
    findFunc (stepFunc m n') n = some f := by
  cases hf : findFunc m n' with
  | none => rw [stepFunc_none hf]; exact h
  | some g =>
      cases hgb : g.body with
      | none =>
          by_cases hc : useCountByName m n' = 0
          · rw [stepFunc_decl_removed hf hgb hc, findFunc_removeFunc_ne hne]
            exact h
          · rw [stepFunc_decl_kept hf hgb hc]; exact h
      | some b =>
          rw [stepFunc_defined hf hgb]
          have h1 : findFunc (processBody m b).1 n = some f :=
            processBody_pres (P := fun m' => findFunc m' n = some f)
              (fun _ _ hw hp => walkEffect_findFunc_defined hw hp hb) b h
          rw [findFunc_updateFuncBody_ne hne]
          exact h1

theorem stepFunc_visit_defined {m : MModule} {n : Name} {f : Func} {b : List MInstr}
    (h : findFunc m n = some f) (hb : f.body = some b) :
    findFunc (stepFunc m n) n = some { f with body := some (processBody m b).2 } := by
  rw [stepFunc_defined h hb]
  have h1 : findFunc (processBody m b).1 n = some f :=
    processBody_pres (P := fun m' => findFunc m' n = some f)
      (fun _ _ hw hp => walkEffect_findFunc_defined hw hp (by simp [hb])) b h
  exact findFunc_updateFuncBody_eq h1

theorem mem_processBody_funcs {m : MModule} {b : List MInstr} {f : Func}
    (h : f ∈ (processBody m b).1.funcs) :
    f ∈ m.funcs ∨ (∀ bb, f.body = some bb → SynthBody bb) :=
  (processBody_pres
    (P := fun m' => f ∈ m'.funcs → f ∈ m.funcs ∨ (∀ bb, f.body = some bb → SynthBody bb))
    (fun _ _ hw hp h2 => (walkEffect_mem hw h2).elim hp Or.inr)
    b (fun h0 => Or.inl h0)) h

theorem func_eta_body {f : Func} {b : List MInstr} (hb : f.body = some b) :
    ({ f with body := some b } : Func) = f := by
  obtain ⟨n1, p1, b1⟩ := f
  simp only at hb
  rw [hb]

theorem processed_clean {m : MModule} {b : List MInstr} :
    ∀ i ∈ (processBody m b).2, ∀ k ∈ unsupportedMD, i.md.lookup k = none := by
  intro i hi k hk
  have hmd := processBody_mds m b
  have : i.md ∈ (processBody m b).2.map MInstr.md := List.mem_map_of_mem _ hi
  rw [hmd] at this
  obtain ⟨j, _, he⟩ := List.mem_map.mp this
  rw [← he]
  exact lookup_stripMD_bad hk

theorem stepFunc_clean {m : MModule} {n : Name} {rest : List Name}
    (hnd : NoDupNames m)
    (hinv : ∀ f ∈ m.funcs, f.name ∉ (n :: rest) → CleanFunc f) :
    ∀ f ∈ (stepFunc m n).funcs, f.name ∉ rest → CleanFunc f := by
  cases hf : findFunc m n with
  | none =>
      rw [stepFunc_none hf]
      intro f hfm hrest
      have hne : ¬ f.name = n := findFunc_none_not_mem hf f hfm
      exact hinv f hfm (by simp [hne, hrest])
  | some g =>
      cases hgb : g.body with
      | none =>
          have hdecl : ∀ f ∈ m.funcs, f.name ∉ rest → CleanFunc f := by
            intro f hfm hrest
            by_cases hne : f.name = n
            · have : f = g := by
                have h1 := findFunc_of_mem_nodup hnd hfm
                rw [hne, hf] at h1
                exact (Option.some.inj h1).symm
              subst this
              intro bb hbb
              rw [hgb] at hbb
              cases hbb
            · exact hinv f hfm (by simp [hne, hrest])
          by_cases hc : useCountByName m n = 0
          · rw [stepFunc_decl_removed hf hgb hc]
            intro f hfm hrest
            exact hdecl f (mem_removeFunc hfm) hrest
          · rw [stepFunc_decl_kept hf hgb hc]
            exact hdecl
      | some b =>
          intro f hfm hrest
          by_cases hne : f.name = n
          · have hnd' : NoDupNames (stepFunc m n) := stepFunc_noDup hnd
            have h1 := findFunc_of_mem_nodup hnd' hfm
            rw [hne, stepFunc_visit_defined hf hgb] at h1
            have hfe := Option.some.inj h1
            subst hfe
            intro bb hbb
            simp only at hbb
            cases hbb
            exact processed_clean
          · rw [stepFunc_defined hf hgb] at hfm
            rcases mem_updateFuncBody hfm with h1 | ⟨g2, hg2, hge, hfe⟩
            · rcases mem_processBody_funcs h1 with h2 | h2
              · exact hinv f h2 (by simp [hne, hrest])
              · intro bb hbb
                exact synthBody_clean (h2 bb hbb)
            · exact absurd (hfe ▸ hge : f.name = n) hne

theorem walk_clean {m : MModule} (hnd : NoDupNames m) :
    ∀ f ∈ (walk m).funcs, CleanFunc f := by
  unfold walk
  have main : ∀ (names : List Name) (mm : MModule), NoDupNames mm →
      (∀ f ∈ mm.funcs, f.name ∉ names → CleanFunc f) →
      ∀ f ∈ (names.foldl stepFunc mm).funcs, CleanFunc f := by
    intro names
    induction names with
    | nil =>
        intro mm _ hinv f hf
        exact hinv f hf (List.not_mem_nil _)
    | cons n rest ih =>
        intro mm hnd' hinv
        simp only [List.foldl_cons]
        exact ih (stepFunc mm n) (stepFunc_noDup hnd') (stepFunc_clean hnd' hinv)
  refine main _ m hnd fun f hf hne => absurd (List.mem_map_of_mem Func.name hf) hne

theorem foldl_stepFunc_findFunc_defined {names : List Name} {m : MModule}
    {n : Name} {f : Func} (hnot : n ∉ names)
    (h : findFunc m n = some f) (hb : f.body.isSome = true) :
    findFunc (names.foldl stepFunc m) n = some f := by
  induction names generalizing m with
  | nil => exact h
  | cons n' rest ih =>
      simp only [List.foldl_cons]
      have hne : n ≠ n' := fun he => hnot (he ▸ List.mem_cons_self n' rest)
      exact ih (fun hin => hnot (List.mem_cons_of_mem n' hin))
        (stepFunc_findFunc_defined hne h hb)

/-- Tracking one defined function through the whole walk: it is visited
exactly once, its body becomes its processed body, and nothing else touches
it. -/
theorem walk_defined_md {m : MModule} {f : Func} {b : List MInstr}
    (hnd : NoDupNames m) (hmem : f ∈ m.funcs) (hb : f.body = some b) :
    ∃ b', findFunc (walk m) f.name = some { f with body := some b' }
      ∧ b'.map MInstr.md = b.map fun i => stripMD i.md := by
  unfold walk
  have hdn : f.name ∈ m.funcs.map Func.name := List.mem_map_of_mem _ hmem
  obtain ⟨l₁, l₂, hsplit⟩ := List.append_of_mem hdn
  have hnd2 : (l₁ ++ f.name :: l₂).Nodup := by rw [← hsplit]; exact hnd
  have hnotl₁ : f.name ∉ l₁ := by
    intro hin
    exact (List.nodup_append.mp hnd2).2.2 hin (List.mem_cons_self _ _)
  have hnotl₂ : f.name ∉ l₂ :=
    (List.nodup_cons.mp (List.nodup_append.mp hnd2).2.1).1
  rw [hsplit, List.foldl_append, List.foldl_cons]
  have hfind : findFunc m f.name = some f := findFunc_of_mem_nodup hnd hmem
  have hphase1 : findFunc (l₁.foldl stepFunc m) f.name = some f :=
    foldl_stepFunc_findFunc_defined hnotl₁ hfind (by simp [hb])
  set m1 := l₁.foldl stepFunc m with hm1
  refine ⟨(processBody m1 b).2, ?_, processBody_mds m1 b⟩
  exact foldl_stepFunc_findFunc_defined hnotl₂
    (stepFunc_visit_defined hphase1 hb) (by simp)

/- ===================== eu / lfp lemmas ===================== -/

theorem eu_noDup {m : MModule} (h : NoDupNames m) :
    NoDupNames (eraseUselessFunctions m) :=
  (List.Sublist.map Func.name (List.filter_sublist _)).nodup h

theorem eu_mem_defined {m : MModule} {f : Func} {b : List MInstr}
    (hf : f ∈ m.funcs) (hb : f.body = some b) :
    f ∈ (eraseUselessFunctions m).funcs := by
  unfold eraseUselessFunctions
  refine List.mem_filter.mpr ⟨hf, ?_⟩
  simp [hb]

theorem rewriteCallsTo_md (oldN newN : Name) (i : MInstr) :
    (rewriteCallsTo oldN newN i).md = i.md := by
  obtain ⟨k, md, tc, nu⟩ := i
  cases k with
  | callK c args valC lenC vol =>
      by_cases h : c = oldN <;> simp [rewriteCallsTo, h]
  | binK pe ex => rfl
  | otherK => rfl

theorem mapBodies_names (g : MInstr → MInstr) (m : MModule) :
    (mapBodies g m).funcs.map Func.name = m.funcs.map Func.name := by
  unfold mapBodies
  rw [List.map_map]
  rfl

theorem findFunc_mapBodies (g : MInstr → MInstr) (m : MModule) (n : Name) :
    findFunc (mapBodies g m) n
      = (findFunc m n).map fun f => { f with body := f.body.map (List.map g) } := by
  unfold mapBodies findFunc
  rw [List.find?_map]
  rfl

theorem lfpOne_noDup {m : MModule} {p : Name × Name} (h : NoDupNames m) :
    NoDupNames (lowerFuncPtrOne m p) := by
  unfold lowerFuncPtrOne
  by_cases hc : hasCallTo m p.1 = true
  · simp only [hc, if_pos trivial]
    cases hf : findFunc (mapBodies (rewriteCallsTo p.1 p.2) m) p.2 with
    | some f =>
        simpa only [NoDupNames, mapBodies_names] using h
    | none =>
        simp only [NoDupNames, List.map_append, List.map_cons, List.map_nil]
        rw [List.nodup_append]
        refine ⟨by simpa only [NoDupNames, mapBodies_names] using h,
          List.nodup_singleton _, ?_⟩
        intro x hx hx'
        simp only [List.mem_singleton] at hx'
        subst hx'
        obtain ⟨f, hfm, hfe⟩ := List.mem_map.mp hx
        exact findFunc_none_not_mem hf f hfm hfe
  · simp only [Bool.of_not_eq_true hc, Bool.false_eq_true, ite_false]
    exact h

theorem lfpOne_defined_md {m : MModule} {p : Name × Name} {n : Name} {f : Func}
    {b : List MInstr} (h : findFunc m n = some f) (hb : f.body = some b) :
    ∃ b', findFunc (lowerFuncPtrOne m p) n = some { f with body := some b' }
      ∧ b'.map MInstr.md = b.map MInstr.md := by
  unfold lowerFuncPtrOne
  by_cases hc : hasCallTo m p.1 = true
  · simp only [hc, if_pos trivial]
    have h1 : findFunc (mapBodies (rewriteCallsTo p.1 p.2) m) n
        = some { f with body := some (b.map (rewriteCallsTo p.1 p.2)) } := by
      rw [findFunc_mapBodies, h]
      simp [hb]
    have hmd : (b.map (rewriteCallsTo p.1 p.2)).map MInstr.md = b.map MInstr.md := by
      rw [List.map_map]
      exact List.map_congr_left fun i _ => rewriteCallsTo_md p.1 p.2 i
    cases hf : findFunc (mapBodies (rewriteCallsTo p.1 p.2) m) p.2 with
    | some g => exact ⟨_, h1, hmd⟩
    | none =>
        refine ⟨_, ?_, hmd⟩
        exact findFunc_append_of_some h1 _
  · simp only [Bool.of_not_eq_true hc, Bool.false_eq_true, ite_false]
    exact ⟨b, by rw [h, func_eta_body hb], rfl⟩

theorem foldl_lfpOne_noDup (work : List (Name × Name)) {m : MModule}
    (h : NoDupNames m) : NoDupNames (work.foldl lowerFuncPtrOne m) := by
  induction work generalizing m with
  | nil => exact h
  | cons p rest ih =>
      simp only [List.foldl_cons]
      exact ih (lfpOne_noDup h)

theorem lfp_noDup {oc : Name → Option Name} {m : MModule} (h : NoDupNames m) :
    NoDupNames (lowerFuncPtr oc m) :=
  foldl_lfpOne_noDup _ h

theorem foldl_lfpOne_defined_md (work : List (Name × Name)) {m : MModule}
    {n : Name} {f : Func} {b : List MInstr}
    (h : findFunc m n = some f) (hb : f.body = some b) :
    ∃ b', findFunc (work.foldl lowerFuncPtrOne m) n = some { f with body := some b' }
      ∧ b'.map MInstr.md = b.map MInstr.md := by
  induction work generalizing m f b with
  | nil =>
      refine ⟨b, ?_, rfl⟩
      rw [List.foldl_nil, h, func_eta_body hb]
  | cons p rest ih =>
      simp only [List.foldl_cons]
      obtain ⟨b1, h1, hmd1⟩ := lfpOne_defined_md (p := p) h hb
      obtain ⟨b2, h2, hmd2⟩ := ih h1 rfl
      exact ⟨b2, h2, hmd2.trans hmd1⟩

theorem lfp_defined_md {oc : Name → Option Name} {m : MModule} {n : Name} {f : Func}
    {b : List MInstr} (h : findFunc m n = some f) (hb : f.body = some b) :
    ∃ b', findFunc (lowerFuncPtr oc m) n = some { f with body := some b' }
      ∧ b'.map MInstr.md = b.map MInstr.md :=
  foldl_lfpOne_defined_md _ h hb

theorem get_md_of_map_eq :
    ∀ (b' b : List MInstr), b'.map MInstr.md = b.map (fun i => stripMD i.md) →
      ∀ j (hj : j < b'.length) (hj' : j < b.length),
        (b'.get ⟨j, hj⟩).md = stripMD (b.get ⟨j, hj'⟩).md := by
  intro b'
  induction b' with
  | nil =>
      intro b h j hj
      cases hj
  | cons x xs ih =>
      intro b h j hj hj'
      cases b with
      | nil => cases hj'
      | cons y ys =>
          simp only [List.map_cons, List.cons.injEq] at h
          cases j with
          | zero => exact h.1
          | succ jj =>
              exact ih ys h.2 jj (by simpa using hj) (by simpa using hj')

/-- C9: after the pass, the metadata kinds {fpmath, tbaa, range} are absent
from every instruction of every function with a body (including synthesized
ones); and for every function that was defined before the pass, the
function survives under its name with a body of the same length whose
instructions carry, kind for kind, exactly the metadata they had before,
minus the three unsupported kinds (lines 300-310 of the source). -/
theorem metadata_stripped (oc : Name → Option Name) (m : MModule)
    (hnd : NoDupNames m) :
    (∀ f ∈ (regularize oc m).funcs, ∀ b, f.body = some b →
        ∀ i ∈ b, ∀ k ∈ unsupportedMD, i.md.lookup k = none)
  ∧ (∀ f ∈ m.funcs, ∀ b, f.body = some b →
      ∃ f' b', findFunc (regularize oc m) f.name = some f'
        ∧ f'.name = f.name ∧ f'.body = some b'
        ∧ b'.length = b.length
        ∧ ∀ j (hj : j < b'.length) (hj' : j < b.length), ∀ k,
            (k ∈ unsupportedMD → (b'.get ⟨j, hj⟩).md.lookup k = none)
          ∧ (k ∉ unsupportedMD →
              (b'.get ⟨j, hj⟩).md.lookup k = (b.get ⟨j, hj'⟩).md.lookup k)) := by
  have hnd2 : NoDupNames (lowerFuncPtr oc (eraseUselessFunctions m)) :=
    lfp_noDup (eu_noDup hnd)
  constructor
  · intro f hf b hb i hi k hk
    exact walk_clean hnd2 f hf b hb i hi k hk
  · intro f hf b hb
    have hfe : f ∈ (eraseUselessFunctions m).funcs := eu_mem_defined hf hb
    have hfind : findFunc (eraseUselessFunctions m) f.name = some f :=
      findFunc_of_mem_nodup (eu_noDup hnd) hfe
    obtain ⟨b1, h1, hmd1⟩ := @lfp_defined_md oc _ _ _ _ hfind hb
    obtain ⟨b2, h2, hmd2⟩ := walk_defined_md hnd2 (findFunc_mem h1) rfl
    have hmd3 : b2.map MInstr.md = b.map fun i => stripMD i.md := by
      rw [hmd2]
      have : b1.map (fun i => stripMD i.md) = (b1.map MInstr.md).map stripMD := by
        rw [List.map_map]
        rfl
      rw [this, hmd1, List.map_map]
      rfl
    have hlen : b2.length = b.length := by
      have := congrArg List.length hmd3
      simpa using this
    refine ⟨_, b2, h2, rfl, rfl, hlen, ?_⟩
    intro j hj hj' k
    have hget : (b2.get ⟨j, hj⟩).md = stripMD (b.get ⟨j, hj'⟩).md :=
      get_md_of_map_eq b2 b hmd3 j hj hj'
    constructor
    · intro hk
      rw [hget]
      exact lookup_stripMD_bad hk
    · intro hk
      rw [hget]
      exact lookup_stripMD_good hk

/-- Witness module for C9: one defined function whose single instruction
carries a `tbaa` attachment and an unrelated `dbg` attachment. -/
def mod9 : MModule :=
  ⟨[⟨nm "h9", false,
     some [⟨MIKind.otherK, [(nm "tbaa", 1), (nm "dbg", 2)], false, false⟩]⟩]⟩

/-- Witness for C9, applying the theorem to the concrete module: the
surviving instruction of `h9` has no `tbaa` metadata. -/
theorem metadata_stripped_witness :
    (⟨MIKind.otherK, [(nm "dbg", 2)], false, false⟩ : MInstr).md.lookup (nm "tbaa")
      = none :=
  (metadata_stripped (fun _ => none) mod9
      (by show (mod9.funcs.map Func.name).Nodup; decide)).1
    ⟨nm "h9", false, some [⟨MIKind.otherK, [(nm "dbg", 2)], false, false⟩]⟩
    (by decide) _ rfl
    ⟨MIKind.otherK, [(nm "dbg", 2)], false, false⟩
    (by decide) (nm "tbaa") (by decide)

/- ===================== Sanitization predicates (C7) ===================== -/

theorem stripMD_idem (md : List (Name × Nat)) : stripMD (stripMD md) = stripMD md := by
  unfold stripMD
  induction md with
  | nil => rfl
  | cons kv rest ih =>
      rw [List.filter_cons]
      by_cases h : (!unsupportedMD.contains kv.1) = true
      · rw [if_pos h, List.filter_cons, if_pos h, ih]
      · rw [if_neg h]
        exact ih

/-- An instruction the walk has nothing left to do to: tail-call cleared on
calls, no-unwind cleared on intrinsic calls, memset calls only with both
arguments constant, no fshl/umul intrinsic callees, `exact` cleared on
possibly-exact binary operators, unsupported metadata stripped. -/
def InstrSan (i : MInstr) : Prop :=
  stripMD i.md = i.md ∧
  match i.kind with
  | MIKind.callK c _ valC lenC _ =>
      i.tailCall = false
      ∧ (isIntrinsicName c = true → i.noUnwind = false
          ∧ (isMemsetName c = true → valC = true ∧ lenC = true)
          ∧ isFshlName c = false ∧ isUmulName c = false)
  | MIKind.binK pe ex => (pe && ex) = false
  | MIKind.otherK => True

/-- Every body of the module is fully sanitized. -/
def AllSan (m : MModule) : Prop :=
  ∀ f ∈ m.funcs, ∀ b, f.body = some b → ∀ i ∈ b, InstrSan i

/-- Every bodiless declaration is still referenced. -/
def NoDeadDecls (m : MModule) : Prop :=
  ∀ f ∈ m.funcs, f.body = none → ¬ useCountByName m f.name = 0

/-- No call anywhere targets a function that the normalizer would classify
as a function-pointer builtin. -/
def NoCandCalls (oc : Name → Option Name) (m : MModule) : Prop :=
  ∀ g ∈ m.funcs, g.hasFnPtrParam = true → (oc g.name).isSome = true →
    hasCallTo m g.name = false

theorem memset_not_fshl {c : Name} (h : isMemsetName c = true) :
    isFshlName c = false := by
  rw [isMemsetName, List.isPrefixOf_iff_prefix] at h
  obtain ⟨t, rfl⟩ := h
  rfl

theorem memset_not_umul {c : Name} (h : isMemsetName c = true) :
    isUmulName c = false := by
  rw [isMemsetName, List.isPrefixOf_iff_prefix] at h
  obtain ⟨t, rfl⟩ := h
  rfl

/-- The instruction produced by `processInstr` is sanitized. -/
theorem processInstr_san (m : MModule) (i : MInstr) : InstrSan (processInstr m i).2 := by
  obtain ⟨k, md, tc, nu⟩ := i
  cases k with
  | callK c args valC lenC vol =>
      simp only [processInstr]
      by_cases h1 : isIntrinsicName c = true
      · simp only [h1, if_pos trivial]
        by_cases h2 : isMemsetName c = true
        · simp only [h2, if_pos trivial]
          unfold lowerMemset
          by_cases hcl : (valC && lenC) = true
          · obtain ⟨hv, hl⟩ := Bool.and_eq_true_iff.mp hcl
            subst hv
            subst hl
            simp only [if_pos trivial]
            refine ⟨stripMD_idem _, rfl, fun _ => ⟨rfl, fun _ => ⟨rfl, rfl⟩,
              memset_not_fshl h2, memset_not_umul h2⟩⟩
          · simp only [Bool.of_not_eq_true hcl, Bool.false_eq_true, ite_false]
            cases findFunc m (lowerLLVMIntrinsicName c ++ (if vol then nm ".volatile" else [])) with
            | some f =>
                refine ⟨stripMD_idem _, rfl, fun hin => absurd hin ?_⟩
                rw [memset_derived_shape, spirv_not_intrinsicName]
                simp
            | none =>
                refine ⟨stripMD_idem _, rfl, fun hin => absurd hin ?_⟩
                rw [memset_derived_shape, spirv_not_intrinsicName]
                simp
        · simp only [Bool.of_not_eq_true h2, Bool.false_eq_true, ite_false]
          by_cases h3 : isFshlName c = true
          · simp only [h3, if_pos trivial]
            refine ⟨stripMD_idem _, rfl, fun hin => absurd hin ?_⟩
            show ¬ isIntrinsicName (lowerFunnelShiftLeft m c).2 = true
            rw [show (lowerFunnelShiftLeft m c).2 = lowerLLVMIntrinsicName c from rfl,
              lowered_name_shape, spirv_not_intrinsicName]
            simp
          · simp only [Bool.of_not_eq_true h3, Bool.false_eq_true, ite_false]
            by_cases h4 : isUmulName c = true
            · simp only [h4, if_pos trivial]
              refine ⟨stripMD_idem _, rfl, fun hin => absurd hin ?_⟩
              show ¬ isIntrinsicName (lowerUMulWithOverflow m c).2 = true
              rw [show (lowerUMulWithOverflow m c).2 = lowerLLVMIntrinsicName c from rfl,
                lowered_name_shape, spirv_not_intrinsicName]
              simp
            · simp only [Bool.of_not_eq_true h4, Bool.false_eq_true, ite_false]
              exact ⟨stripMD_idem _, rfl, fun _ =>
                ⟨rfl, fun hm => absurd hm (by simp [h2]), Bool.of_not_eq_true h3,
                  Bool.of_not_eq_true h4⟩⟩
      · simp only [Bool.of_not_eq_true h1, Bool.false_eq_true, ite_false]
        exact ⟨stripMD_idem _, rfl, fun hin => absurd hin (by simp [h1])⟩
  | binK pe ex =>
      simp only [processInstr]
      by_cases hb : (pe && ex) = true
      · simp only [hb, if_pos trivial]
        exact ⟨stripMD_idem _, by simp⟩
      · simp only [Bool.of_not_eq_true hb, Bool.false_eq_true, ite_false]
        exact ⟨stripMD_idem _, Bool.of_not_eq_true hb⟩
  | otherK => exact ⟨stripMD_idem _, trivial⟩

theorem processed_san {m : MModule} {b : List MInstr} :
    ∀ i ∈ (processBody m b).2, InstrSan i := by
  induction b generalizing m with
  | nil => intro i hi; cases hi
  | cons j rest ih =>
      intro i hi
      simp only [processBody] at hi
      rcases List.mem_cons.mp hi with h1 | h1
      · subst h1
        exact processInstr_san m j
      · exact ih _ h1

theorem synthBody_san {b : List MInstr} (h : SynthBody b) : ∀ i ∈ b, InstrSan i := by
  rcases h with h | h | h <;> subst h <;>
    (intro i hi
     simp only [memsetSynthBody, fshlSynthBody, umulSynthBody, cleanInstr,
       List.mem_cons, List.not_mem_nil, or_false] at hi
     rcases hi with h | h | h | h | h | h <;>
       first
         | (subst h; exact ⟨rfl, trivial⟩)
         | (cases h; exact ⟨rfl, trivial⟩)
         | exact ⟨rfl, trivial⟩)

/-- After the walk, every body of the module is sanitized (same invariant
argument as `walk_clean`, with sanitization in place of metadata absence). -/
theorem stepFunc_san {m : MModule} {n : Name} {rest : List Name}
    (hnd : NoDupNames m)
    (hinv : ∀ f ∈ m.funcs, f.name ∉ (n :: rest) →
      ∀ b, f.body = some b → ∀ i ∈ b, InstrSan i) :
    ∀ f ∈ (stepFunc m n).funcs, f.name ∉ rest →
      ∀ b, f.body = some b → ∀ i ∈ b, InstrSan i := by
  cases hf : findFunc m n with
  | none =>
      rw [stepFunc_none hf]
      intro f hfm hrest
      have hne : ¬ f.name = n := findFunc_none_not_mem hf f hfm
      exact hinv f hfm (by simp [hne, hrest])
  | some g =>
      cases hgb : g.body with
      | none =>
          have hdecl : ∀ f ∈ m.funcs, f.name ∉ rest →
              ∀ b, f.body = some b → ∀ i ∈ b, InstrSan i := by
            intro f hfm hrest
            by_cases hne : f.name = n
            · have : f = g := by
                have h1 := findFunc_of_mem_nodup hnd hfm
                rw [hne, hf] at h1
                exact (Option.some.inj h1).symm
              subst this
              intro bb hbb
              rw [hgb] at hbb
              cases hbb
            · exact hinv f hfm (by simp [hne, hrest])
          by_cases hc : useCountByName m n = 0
          · rw [stepFunc_decl_removed hf hgb hc]
            intro f hfm hrest
            exact hdecl f (mem_removeFunc hfm) hrest
          · rw [stepFunc_decl_kept hf hgb hc]
            exact hdecl
      | some b =>
          intro f hfm hrest
          by_cases hne : f.name = n
          · have hnd' : NoDupNames (stepFunc m n) := stepFunc_noDup hnd
            have h1 := findFunc_of_mem_nodup hnd' hfm
            rw [hne, stepFunc_visit_defined hf hgb] at h1
            have hfe := Option.some.inj h1
            subst hfe
            intro bb hbb
            simp only at hbb
            cases hbb
            exact processed_san
          · rw [stepFunc_defined hf hgb] at hfm
            rcases mem_updateFuncBody hfm with h1 | ⟨g2, hg2, hge, hfe⟩
            · rcases mem_processBody_funcs h1 with h2 | h2
              · exact hinv f h2 (by simp [hne, hrest])
              · intro bb hbb
                exact synthBody_san (h2 bb hbb)
            · exact absurd (hfe ▸ hge : f.name = n) hne

theorem walk_san {m : MModule} (hnd : NoDupNames m) : AllSan (walk m) := by
  unfold walk
  have main : ∀ (names : List Name) (mm : MModule), NoDupNames mm →
      (∀ f ∈ mm.funcs, f.name ∉ names → ∀ b, f.body = some b → ∀ i ∈ b, InstrSan i) →
      AllSan (names.foldl stepFunc mm) := by
    intro names
    induction names with
    | nil =>
        intro mm _ hinv f hf
        exact hinv f hf (List.not_mem_nil _)
    | cons n rest ih =>
        intro mm hnd' hinv
        simp only [List.foldl_cons]
        exact ih (stepFunc mm n) (stepFunc_noDup hnd') (stepFunc_san hnd' hinv)
  refine main _ m hnd fun f hf hne => absurd (List.mem_map_of_mem Func.name hf) hne

/- ===================== Identity on sanitized modules ===================== -/

theorem processInstr_id {m : MModule} {i : MInstr} (h : InstrSan i) :
    processInstr m i = (m, i) := by
  obtain ⟨k, md, tc, nu⟩ := i
  obtain ⟨hmd, hk⟩ := h
  simp only at hmd
  cases k with
  | callK c args valC lenC vol =>
      obtain ⟨htc, hintr⟩ := hk
      simp only at htc
      subst htc
      simp only [processInstr]
      by_cases h1 : isIntrinsicName c = true
      · obtain ⟨hnu, hmem, hfshl, humul⟩ := hintr h1
        simp only at hnu
        subst hnu
        simp only [h1, if_pos trivial, hfshl, humul, Bool.false_eq_true, ite_false]
        by_cases h2 : isMemsetName c = true
        · obtain ⟨hv, hl⟩ := hmem h2
          subst hv
          subst hl
          simp [lowerMemset, hmd]
        · simp [Bool.of_not_eq_true h2, hmd]
      · simp [Bool.of_not_eq_true h1, hmd]
  | binK pe ex =>
      simp only at hk
      simp [processInstr, hk, hmd]
  | otherK => simp [processInstr, hmd]

theorem processBody_id {m : MModule} {b : List MInstr}
    (h : ∀ i ∈ b, InstrSan i) : processBody m b = (m, b) := by
  induction b with
  | nil => rfl
  | cons i rest ih =>
      simp only [processBody, processInstr_id (h i (List.mem_cons_self i rest))]
      rw [ih fun x hx => h x (List.mem_cons_of_mem i hx)]

theorem updateFuncBody_self {l : List Func} {n : Name} {f : Func} {b : List MInstr}
    (h : findFunc ⟨l⟩ n = some f) (hb : f.body = some b) :
    updateFuncBody l n b = l := by
  induction l with
  | nil => rfl
  | cons g gs ih =>
      unfold updateFuncBody
      by_cases hg : g.name = n
      · rw [findFunc_cons_eq hg] at h
        cases h
        rw [if_pos hg, func_eta_body hb]
      · rw [findFunc_cons_ne hg] at h
        rw [if_neg hg, ih h]

theorem stepFunc_id {m : MModule} {n : Name} (hsan : AllSan m) (hdead : NoDeadDecls m) :
    stepFunc m n = m := by
  cases hf : findFunc m n with
  | none => exact stepFunc_none hf
  | some f =>
      cases hb : f.body with
      | none =>
          exact stepFunc_decl_kept hf hb
            (findFunc_name hf ▸ hdead f (findFunc_mem hf) hb)
      | some b =>
          rw [stepFunc_defined hf hb]
          rw [processBody_id (hsan f (findFunc_mem hf) b hb)]
          rw [updateFuncBody_self hf hb]

theorem walk_id {m : MModule} (hsan : AllSan m) (hdead : NoDeadDecls m) :
    walk m = m := by
  unfold walk
  generalize m.funcs.map Func.name = names
  induction names with
  | nil => rfl
  | cons n rest ih =>
      simp only [List.foldl_cons, stepFunc_id hsan hdead]
      exact ih

/- ===================== eu and lfp identity lemmas ===================== -/

theorem funcUses_of_none {k : Name} {f : Func} (h : f.body = none) :
    funcUses k f = 0 := by
  unfold funcUses
  rw [h]
  rfl

theorem sum_filter_funcUses {p : Func → Bool} {l : List Func} {k : Name}
    (h : ∀ f ∈ l, p f = false → funcUses k f = 0) :
    ((l.filter p).map (funcUses k)).sum = (l.map (funcUses k)).sum := by
  induction l with
  | nil => rfl
  | cons f fs ih =>
      rw [List.filter_cons]
      by_cases hp : p f = true
      · rw [if_pos hp]
        simp only [List.map_cons, List.sum_cons]
        rw [ih fun g hg hgp => h g (List.mem_cons_of_mem f hg) hgp]
      · rw [if_neg (by simpa using hp)]
        simp only [List.map_cons, List.sum_cons]
        rw [h f (List.mem_cons_self f fs) (Bool.of_not_eq_true hp),
          ih fun g hg hgp => h g (List.mem_cons_of_mem f hg) hgp]
        simp

theorem useCount_eu (m : MModule) (k : Name) :
    useCountByName (eraseUselessFunctions m) k = useCountByName m k := by
  unfold eraseUselessFunctions useCountByName
  refine sum_filter_funcUses fun f _ hp => ?_
  simp only [Bool.not_eq_false', Bool.and_eq_true, Option.isNone_iff_eq_none] at hp
  exact funcUses_of_none hp.1

theorem eu_noDeadDecls (m : MModule) : NoDeadDecls (eraseUselessFunctions m) := by
  intro f hf hbody
  have hmemf := List.mem_filter.mp hf
  have hpred := hmemf.2
  rw [useCount_eu]
  intro hc
  rw [hbody, hc] at hpred
  simp at hpred

theorem eu_allSan {m : MModule} (h : AllSan m) : AllSan (eraseUselessFunctions m) :=
  fun f hf => h f (List.mem_of_mem_filter hf)

theorem hasCallTo_exists {m : MModule} {k : Name} (h : hasCallTo m k = true) :
    ∃ f ∈ m.funcs, ∃ b, f.body = some b ∧ ∃ i ∈ b, callsTo i k = true := by
  unfold hasCallTo at h
  obtain ⟨f, hf, hfa⟩ := List.any_eq_true.mp h
  obtain ⟨i, hi, hia⟩ := List.any_eq_true.mp hfa
  cases hb : f.body with
  | none =>
      rw [hb] at hi
      cases hi
  | some b =>
      rw [hb] at hi
      exact ⟨f, hf, b, hb, i, hi, hia⟩

theorem hasCallTo_intro {m : MModule} {k : Name} {f : Func} {b : List MInstr}
    {i : MInstr} (hf : f ∈ m.funcs) (hb : f.body = some b) (hi : i ∈ b)
    (hc : callsTo i k = true) : hasCallTo m k = true := by
  unfold hasCallTo
  refine List.any_eq_true.mpr ⟨f, hf, List.any_eq_true.mpr ⟨i, ?_, hc⟩⟩
  rw [hb]
  exact hi

theorem eu_noCand {oc : Name → Option Name} {m : MModule}
    (h : NoCandCalls oc m) : NoCandCalls oc (eraseUselessFunctions m) := by
  intro g hg hptr hoc
  have h1 := h g (List.mem_of_mem_filter hg) hptr hoc
  cases hcall : hasCallTo (eraseUselessFunctions m) g.name with
  | false => rfl
  | true =>
      obtain ⟨f, hf, b, hb, i, hi, hc⟩ := hasCallTo_exists hcall
      rw [hasCallTo_intro (List.mem_of_mem_filter hf) hb hi hc] at h1
      cases h1

theorem lowerFuncPtrOne_id {m : MModule} {p : Name × Name}
    (h : hasCallTo m p.1 = false) : lowerFuncPtrOne m p = m := by
  unfold lowerFuncPtrOne
  rw [h]
  rfl

theorem foldl_lfpOne_id {work : List (Name × Name)} {m : MModule}
    (h : ∀ p ∈ work, hasCallTo m p.1 = false) :
    work.foldl lowerFuncPtrOne m = m := by
  induction work with
  | nil => rfl
  | cons q rest ih =>
      simp only [List.foldl_cons,
        lowerFuncPtrOne_id (h q (List.mem_cons_self q rest))]
      exact ih fun p hp => h p (List.mem_cons_of_mem q hp)

theorem mem_work_candidate {oc : Name → Option Name} {m : MModule} {p : Name × Name}
    (h : p ∈ m.funcs.filterMap fun f =>
      if f.hasFnPtrParam then (oc f.name).map fun d => (f.name, decorateSPIRVFunction d)
      else none) :
    ∃ f ∈ m.funcs, f.hasFnPtrParam = true
      ∧ ∃ d, oc f.name = some d ∧ p = (f.name, decorateSPIRVFunction d) := by
  obtain ⟨f, hf, hfe⟩ := List.mem_filterMap.mp h
  by_cases hp : f.hasFnPtrParam = true
  · rw [if_pos hp] at hfe
    cases hd : oc f.name with
    | none =>
        rw [hd] at hfe
        cases hfe
    | some d =>
        rw [hd] at hfe
        simp only [Option.map_some'] at hfe
        cases hfe
        exact ⟨f, hf, hp, d, hd, rfl⟩
  · rw [if_neg (by simpa using hp)] at hfe
    cases hfe

theorem work_candidate_mem {oc : Name → Option Name} {m : MModule} {f : Func} {d : Name}
    (hf : f ∈ m.funcs) (hp : f.hasFnPtrParam = true) (hd : oc f.name = some d) :
    (f.name, decorateSPIRVFunction d) ∈ (m.funcs.filterMap fun f =>
      if f.hasFnPtrParam then (oc f.name).map fun d => (f.name, decorateSPIRVFunction d)
      else none) := by
  refine List.mem_filterMap.mpr ⟨f, hf, ?_⟩
  rw [if_pos hp, hd]
  rfl

theorem lfp_id {oc : Name → Option Name} {m : MModule}
    (h : NoCandCalls oc m) : lowerFuncPtr oc m = m := by
  refine foldl_lfpOne_id fun p hp => ?_
  obtain ⟨f, hf, hptr, d, hd, hpe⟩ := mem_work_candidate hp
  subst hpe
  exact h f hf hptr (by simp [hd])

/- ============ The normalizer leaves no calls to builtins (C7) ============ -/

theorem callsTo_rewrite_self {p1 p2 : Name} (hne : ¬ p2 = p1) (i : MInstr) :
    callsTo (rewriteCallsTo p1 p2 i) p1 = false := by
  obtain ⟨k, md, tc, nu⟩ := i
  cases k with
  | callK c args valC lenC vol =>
      by_cases h : c = p1
      · simp [rewriteCallsTo, callsTo, h, hne]
      · simp [rewriteCallsTo, callsTo, h]
  | binK pe ex => rfl
  | otherK => rfl

theorem callsTo_rewrite_to {p1 p2 k : Name} {i : MInstr}
    (h : callsTo (rewriteCallsTo p1 p2 i) k = true) :
    callsTo i k = true ∨ k = p2 := by
  obtain ⟨ki, md, tc, nu⟩ := i
  cases ki with
  | callK c args valC lenC vol =>
      by_cases hc : c = p1
      · simp only [rewriteCallsTo, if_pos hc, callsTo, decide_eq_true_eq] at h
        exact Or.inr h.symm
      · simp only [rewriteCallsTo, if_neg hc] at h
        exact Or.inl h
  | binK pe ex => cases h
  | otherK => cases h

theorem hasCallTo_mapBodies_rewrite {m : MModule} {p1 p2 k : Name}
    (h : hasCallTo (mapBodies (rewriteCallsTo p1 p2) m) k = true) :
    hasCallTo m k = true ∨ k = p2 := by
  obtain ⟨f, hf, b, hb, i, hi, hc⟩ := hasCallTo_exists h
  obtain ⟨f0, hf0, hfe⟩ := List.mem_map.mp hf
  subst hfe
  simp only at hb
  cases hb0 : f0.body with
  | none =>
      rw [hb0] at hb
      cases hb
  | some b0 =>
      rw [hb0] at hb
      simp only [Option.map_some'] at hb
      cases hb
      obtain ⟨i0, hi0, hie⟩ := List.mem_map.mp hi
      subst hie
      rcases callsTo_rewrite_to hc with h1 | h1
      · exact Or.inl (hasCallTo_intro hf0 hb0 hi0 h1)
      · exact Or.inr h1

theorem hasCallTo_self_rewrite {m : MModule} {p1 p2 : Name} (hne : ¬ p2 = p1) :
    hasCallTo (mapBodies (rewriteCallsTo p1 p2) m) p1 = false := by
  cases hc : hasCallTo (mapBodies (rewriteCallsTo p1 p2) m) p1 with
  | false => rfl
  | true =>
      obtain ⟨f, hf, b, hb, i, hi, hcall⟩ := hasCallTo_exists hc
      obtain ⟨f0, hf0, hfe⟩ := List.mem_map.mp hf
      subst hfe
      simp only at hb
      cases hb0 : f0.body with
      | none =>
          rw [hb0] at hb
          cases hb
      | some b0 =>
          rw [hb0] at hb
          simp only [Option.map_some'] at hb
          cases hb
          obtain ⟨i0, hi0, hie⟩ := List.mem_map.mp hi
          subst hie
          rw [callsTo_rewrite_self hne i0] at hcall
          cases hcall

theorem hasCallTo_append_decl {m : MModule} {k x : Name} {y : Bool} :
    hasCallTo ⟨m.funcs ++ [⟨x, y, none⟩]⟩ k = hasCallTo m k := by
  unfold hasCallTo
  rw [List.any_append]
  simp

theorem lowerFuncPtrOne_hasCallTo {m : MModule} {q : Name × Name} {k : Name}
    (hq2 : ¬ q.2 = k) (h : hasCallTo m k = false) :
    hasCallTo (lowerFuncPtrOne m q) k = false := by
  unfold lowerFuncPtrOne
  cases hc : hasCallTo m q.1 with
  | false => exact h
  | true =>
      simp only [if_pos trivial]
      have hmres : hasCallTo (mapBodies (rewriteCallsTo q.1 q.2) m) k = false := by
        cases hres : hasCallTo (mapBodies (rewriteCallsTo q.1 q.2) m) k with
        | false => rfl
        | true =>
            rcases hasCallTo_mapBodies_rewrite hres with h1 | h1
            · rw [h1] at h
              cases h
            · exact absurd h1.symm hq2
      cases hfind : findFunc (mapBodies (rewriteCallsTo q.1 q.2) m) q.2 with
      | some g => exact hmres
      | none => exact hasCallTo_append_decl.trans hmres

theorem lowerFuncPtrOne_self {m : MModule} {q : Name × Name}
    (hne : ¬ q.2 = q.1) : hasCallTo (lowerFuncPtrOne m q) q.1 = false := by
  unfold lowerFuncPtrOne
  cases hc : hasCallTo m q.1 with
  | false => exact hc
  | true =>
      simp only [if_pos trivial]
      have hmres := hasCallTo_self_rewrite (m := m) hne
      cases hfind : findFunc (mapBodies (rewriteCallsTo q.1 q.2) m) q.2 with
      | some g => exact hmres
      | none => exact hasCallTo_append_decl.trans hmres

theorem foldl_lfpOne_preserves_noCall {work : List (Name × Name)} {m : MModule} {k : Name}
    (hw : ∀ p ∈ work, ∃ x, p.2 = nm "__spirv_" ++ x)
    (hk : ∀ x, k ≠ nm "__spirv_" ++ x)
    (h : hasCallTo m k = false) :
    hasCallTo (work.foldl lowerFuncPtrOne m) k = false := by
  induction work generalizing m with
  | nil => exact h
  | cons q rest ih =>
      simp only [List.foldl_cons]
      refine ih (fun p hp => hw p (List.mem_cons_of_mem q hp)) ?_
      refine lowerFuncPtrOne_hasCallTo ?_ h
      obtain ⟨x, hx⟩ := hw q (List.mem_cons_self q rest)
      exact fun he => hk x (he ▸ hx)

theorem foldl_lfpOne_no_calls {work : List (Name × Name)} {m : MModule}
    (hforms : ∀ p ∈ work, (∀ x, p.1 ≠ nm "__spirv_" ++ x) ∧ (∃ x, p.2 = nm "__spirv_" ++ x)) :
    ∀ p ∈ work, hasCallTo (work.foldl lowerFuncPtrOne m) p.1 = false := by
  induction work generalizing m with
  | nil => intro p hp; cases hp
  | cons q rest ih =>
      intro p hp
      simp only [List.foldl_cons]
      rcases List.mem_cons.mp hp with h1 | h1
      · have hq1 := (hforms q (List.mem_cons_self q rest)).1
        have hq2 := (hforms q (List.mem_cons_self q rest)).2
        rw [h1]
        refine foldl_lfpOne_preserves_noCall
          (fun p' hp' => (hforms p' (List.mem_cons_of_mem q hp')).2) hq1 ?_
        refine lowerFuncPtrOne_self ?_
        obtain ⟨x, hx⟩ := hq2
        exact fun he => hq1 x (he ▸ hx)
      · exact ih (fun p' hp' => hforms p' (List.mem_cons_of_mem q hp')) p h1

theorem lfpOne_mem_trace {m : MModule} {q : Name × Name} {g : Func}
    (h : g ∈ (lowerFuncPtrOne m q).funcs) :
    (∃ g0 ∈ m.funcs, g0.name = g.name ∧ g0.hasFnPtrParam = g.hasFnPtrParam)
      ∨ g.name = q.2 := by
  unfold lowerFuncPtrOne at h
  cases hc : hasCallTo m q.1 with
  | false =>
      rw [hc] at h
      exact Or.inl ⟨g, h, rfl, rfl⟩
  | true =>
      rw [hc] at h
      simp only [if_pos trivial] at h
      cases hfind : findFunc (mapBodies (rewriteCallsTo q.1 q.2) m) q.2 with
      | some g2 =>
          rw [hfind] at h
          obtain ⟨g0, hg0, hge⟩ := List.mem_map.mp h
          exact Or.inl ⟨g0, hg0, by rw [← hge], by rw [← hge]⟩
      | none =>
          rw [hfind] at h
          rcases List.mem_append.mp h with h1 | h1
          · obtain ⟨g0, hg0, hge⟩ := List.mem_map.mp h1
            exact Or.inl ⟨g0, hg0, by rw [← hge], by rw [← hge]⟩
          · simp only [List.mem_singleton] at h1
            subst h1
            exact Or.inr rfl

theorem foldl_lfpOne_mem_trace {work : List (Name × Name)} {m : MModule} {g : Func}
    (hw : ∀ p ∈ work, ∃ x, p.2 = nm "__spirv_" ++ x)
    (h : g ∈ (work.foldl lowerFuncPtrOne m).funcs) :
    (∃ g0 ∈ m.funcs, g0.name = g.name ∧ g0.hasFnPtrParam = g.hasFnPtrParam)
      ∨ ∃ x, g.name = nm "__spirv_" ++ x := by
  induction work generalizing m with
  | nil => exact Or.inl ⟨g, h, rfl, rfl⟩
  | cons q rest ih =>
      simp only [List.foldl_cons] at h
      rcases ih (fun p hp => hw p (List.mem_cons_of_mem q hp)) h with
        ⟨g0, hg0, hname, hptr⟩ | h1
      · rcases lfpOne_mem_trace hg0 with ⟨g1, hg1, hn1, hp1⟩ | h2
        · exact Or.inl ⟨g1, hg1, hn1.trans hname, hp1.trans hptr⟩
        · obtain ⟨x, hx⟩ := hw q (List.mem_cons_self q rest)
          exact Or.inr ⟨x, hname ▸ (h2.trans hx)⟩
      · exact Or.inr h1

theorem lfp_noCand {oc : Name → Option Name} {m : MModule}
    (hOc1 : ∀ x, oc (nm "__spirv_" ++ x) = none) :
    NoCandCalls oc (lowerFuncPtr oc m) := by
  intro g hg hptr hoc
  have hforms : ∀ p ∈ (m.funcs.filterMap fun f =>
      if f.hasFnPtrParam then (oc f.name).map fun d => (f.name, decorateSPIRVFunction d)
      else none),
      (∀ x, p.1 ≠ nm "__spirv_" ++ x) ∧ (∃ x, p.2 = nm "__spirv_" ++ x) := by
    intro p hp
    obtain ⟨f, hf, hfp, d, hd, hpe⟩ := mem_work_candidate hp
    subst hpe
    refine ⟨fun x he => ?_, ⟨d, rfl⟩⟩
    have he' : f.name = nm "__spirv_" ++ x := he
    rw [he', hOc1 x] at hd
    cases hd
  rcases foldl_lfpOne_mem_trace (fun p hp => (hforms p hp).2) hg with
    ⟨g0, hg0, hname, hptr0⟩ | ⟨x, hx⟩
  · obtain ⟨d, hd⟩ := Option.isSome_iff_exists.mp hoc
    have hd0 : oc g0.name = some d := by rw [hname]; exact hd
    have hwork := work_candidate_mem hg0 (hptr0.trans hptr) hd0
    have h2 : hasCallTo (lowerFuncPtr oc m) g0.name = false :=
      foldl_lfpOne_no_calls hforms _ hwork
    exact hname ▸ h2
  · rw [hx, hOc1 x] at hoc
    cases hoc

/- ============ The walk preserves absence of builtin calls (C7) ============ -/

theorem synthBody_noCalls {b : List MInstr} (h : SynthBody b) :
    ∀ i ∈ b, ∀ k, callsTo i k = false := by
  rcases h with h | h | h <;> subst h <;>
    (intro i hi k
     simp only [memsetSynthBody, fshlSynthBody, umulSynthBody, cleanInstr,
       List.mem_cons, List.not_mem_nil, or_false] at hi
     rcases hi with h | h | h | h | h | h <;> first | (subst h; rfl) | (cases h; rfl) | rfl)

theorem callsTo_processInstr {m : MModule} {i : MInstr} {k : Name}
    (h : callsTo (processInstr m i).2 k = true) :
    callsTo i k = true ∨ ∃ s, k = nm "spirv." ++ s := by
  obtain ⟨ki, md, tc, nu⟩ := i
  cases ki with
  | callK c args valC lenC vol =>
      simp only [processInstr] at h
      by_cases h1 : isIntrinsicName c = true
      · simp only [h1, if_pos trivial] at h
        by_cases h2 : isMemsetName c = true
        · simp only [h2, if_pos trivial] at h
          unfold lowerMemset at h
          by_cases hcl : (valC && lenC) = true
          · simp only [hcl, if_pos trivial] at h
            exact Or.inl h
          · simp only [Bool.of_not_eq_true hcl, Bool.false_eq_true, ite_false] at h
            cases hfind : findFunc m (lowerLLVMIntrinsicName c ++ (if vol then nm ".volatile" else [])) with
            | some f =>
                rw [hfind] at h
                simp only [callsTo, decide_eq_true_eq] at h
                exact Or.inr ⟨_, h.symm.trans (memset_derived_shape c vol)⟩
            | none =>
                rw [hfind] at h
                simp only [callsTo, decide_eq_true_eq] at h
                exact Or.inr ⟨_, h.symm.trans (memset_derived_shape c vol)⟩
        · simp only [Bool.of_not_eq_true h2, Bool.false_eq_true, ite_false] at h
          by_cases h3 : isFshlName c = true
          · simp only [h3, if_pos trivial, callsTo, decide_eq_true_eq] at h
            exact Or.inr ⟨_, h.symm.trans (lowered_name_shape c)⟩
          · simp only [Bool.of_not_eq_true h3, Bool.false_eq_true, ite_false] at h
            by_cases h4 : isUmulName c = true
            · simp only [h4, if_pos trivial, callsTo, decide_eq_true_eq] at h
              exact Or.inr ⟨_, h.symm.trans (lowered_name_shape c)⟩
            · simp only [Bool.of_not_eq_true h4, Bool.false_eq_true, ite_false] at h
              exact Or.inl h
      · simp only [Bool.of_not_eq_true h1, Bool.false_eq_true, ite_false] at h
        exact Or.inl h
  | binK pe ex =>
      simp only [processInstr] at h
      by_cases hb : (pe && ex) = true <;> simp only [hb] at h <;> cases h
  | otherK =>
      simp only [processInstr, callsTo] at h
      cases h

theorem processBody_mem {m : MModule} {b : List MInstr} {j : MInstr}
    (h : j ∈ (processBody m b).2) :
    ∃ i ∈ b, ∃ mm, j = (processInstr mm i).2 := by
  induction b generalizing m with
  | nil => cases h
  | cons i rest ih =>
      simp only [processBody] at h
      rcases List.mem_cons.mp h with h1 | h1
      · exact ⟨i, List.mem_cons_self i rest, m, h1⟩
      · obtain ⟨i0, hi0, mm, he⟩ := ih h1
        exact ⟨i0, List.mem_cons_of_mem i hi0, mm, he⟩

/-- Callees after a rewrite are either from the base module or derived
`spirv.` names. -/
def CalleeOK (m0 m' : MModule) : Prop :=
  ∀ f ∈ m'.funcs, ∀ b, f.body = some b → ∀ i ∈ b, ∀ k, callsTo i k = true →
    (∃ s, k = nm "spirv." ++ s) ∨ hasCallTo m0 k = true

theorem walkEffect_calleeOK {m0 m m' : MModule} (hw : WalkEffect m m')
    (h : CalleeOK m0 m) : CalleeOK m0 m' := by
  intro f hf b hb i hi k hk
  rcases walkEffect_mem hw hf with h1 | h1
  · exact h f h1 b hb i hi k hk
  · rw [synthBody_noCalls (h1 b hb) i hi k] at hk
    cases hk

theorem stepFunc_calleeOK {m0 m : MModule} {n : Name}
    (h : CalleeOK m0 m) : CalleeOK m0 (stepFunc m n) := by
  cases hf : findFunc m n with
  | none => rw [stepFunc_none hf]; exact h
  | some g =>
      cases hgb : g.body with
      | none =>
          by_cases hc : useCountByName m n = 0
          · rw [stepFunc_decl_removed hf hgb hc]
            intro f hfm b hb i hi k hk
            exact h f (mem_removeFunc hfm) b hb i hi k hk
          · rw [stepFunc_decl_kept hf hgb hc]; exact h
      | some b0 =>
          rw [stepFunc_defined hf hgb]
          have hm2 : CalleeOK m0 (processBody m b0).1 :=
            processBody_pres (P := CalleeOK m0)
              (fun _ _ hw hp => walkEffect_calleeOK hw hp) b0 h
          intro f hfm b hb i hi k hk
          rcases mem_updateFuncBody hfm with h1 | ⟨g2, hg2, hge, hfe⟩
          · exact hm2 f h1 b hb i hi k hk
          · subst hfe
            simp only at hb
            cases hb
            obtain ⟨i0, hi0, mm, he⟩ := processBody_mem hi
            subst he
            rcases callsTo_processInstr hk with h2 | h2
            · exact h g (findFunc_mem hf) b0 hgb i0 hi0 k h2
            · exact Or.inl h2

theorem walk_calleeOK {m : MModule} : CalleeOK m (walk m) :=
  foldl_stepFunc_pres_of (P := CalleeOK m) _
    (fun _ _ _ hp => stepFunc_calleeOK hp) m
    (fun f hf b hb i hi k hk => Or.inr (hasCallTo_intro hf hb hi hk))

theorem walkEffect_mem_trace {m m' : MModule} {g : Func} (hw : WalkEffect m m')
    (h : g ∈ m'.funcs) :
    (∃ g0 ∈ m.funcs, g0.name = g.name ∧ g0.hasFnPtrParam = g.hasFnPtrParam)
      ∨ g.hasFnPtrParam = false := by
  rcases hw with heq | ⟨fn, bd, hfn, _, _, heq⟩ | ⟨fn, g2, synth, hfn, hgb, _, _, heq⟩
  · rw [heq] at h
    exact Or.inl ⟨g, h, rfl, rfl⟩
  · subst heq
    rcases List.mem_append.mp h with h1 | h1
    · exact Or.inl ⟨g, h1, rfl, rfl⟩
    · simp only [List.mem_singleton] at h1
      subst h1
      exact Or.inr rfl
  · subst heq
    rcases mem_updateFuncBody h with h1 | ⟨g3, hg3, _, hfe⟩
    · exact Or.inl ⟨g, h1, rfl, rfl⟩
    · subst hfe
      exact Or.inl ⟨g3, hg3, rfl, rfl⟩

theorem stepFunc_mem_trace {m : MModule} {n : Name} {g : Func}
    (h : g ∈ (stepFunc m n).funcs) :
    (∃ g0 ∈ m.funcs, g0.name = g.name ∧ g0.hasFnPtrParam = g.hasFnPtrParam)
      ∨ g.hasFnPtrParam = false := by
  cases hf : findFunc m n with
  | none =>
      rw [stepFunc_none hf] at h
      exact Or.inl ⟨g, h, rfl, rfl⟩
  | some f =>
      cases hgb : f.body with
      | none =>
          by_cases hc : useCountByName m n = 0
          · rw [stepFunc_decl_removed hf hgb hc] at h
            exact Or.inl ⟨g, mem_removeFunc h, rfl, rfl⟩
          · rw [stepFunc_decl_kept hf hgb hc] at h
            exact Or.inl ⟨g, h, rfl, rfl⟩
      | some b =>
          rw [stepFunc_defined hf hgb] at h
          have htrace : ∀ g2 ∈ (processBody m b).1.funcs,
              (∃ g0 ∈ m.funcs, g0.name = g2.name ∧ g0.hasFnPtrParam = g2.hasFnPtrParam)
                ∨ g2.hasFnPtrParam = false :=
            (processBody_pres
              (P := fun m' => ∀ g2 ∈ m'.funcs,
                (∃ g0 ∈ m.funcs, g0.name = g2.name ∧ g0.hasFnPtrParam = g2.hasFnPtrParam)
                  ∨ g2.hasFnPtrParam = false)
              (fun _ _ hw hp g2 hg2 =>
                (walkEffect_mem_trace hw hg2).elim
                  (fun ⟨g1, hg1, hn1, hp1⟩ =>
                    (hp g1 hg1).elim
                      (fun ⟨g0, hg0, hn0, hp0⟩ =>
                        Or.inl ⟨g0, hg0, hn0.trans hn1, hp0.trans hp1⟩)
                      (fun hfalse => Or.inr (hp1 ▸ hfalse)))
                  Or.inr)
              b (fun g2 hg2 => Or.inl ⟨g2, hg2, rfl, rfl⟩))
          rcases mem_updateFuncBody h with h1 | ⟨g2, hg2, _, hfe⟩
          · exact htrace g h1
          · subst hfe
            exact htrace g2 hg2

theorem walk_mem_trace {m : MModule} {g : Func} (h : g ∈ (walk m).funcs) :
    (∃ g0 ∈ m.funcs, g0.name = g.name ∧ g0.hasFnPtrParam = g.hasFnPtrParam)
      ∨ g.hasFnPtrParam = false :=
  (foldl_stepFunc_pres_of
    (P := fun m' => ∀ g2 ∈ m'.funcs,
      (∃ g0 ∈ m.funcs, g0.name = g2.name ∧ g0.hasFnPtrParam = g2.hasFnPtrParam)
        ∨ g2.hasFnPtrParam = false)
    _
    (fun _ _ _ hp g2 hg2 =>
      (stepFunc_mem_trace hg2).elim
        (fun ⟨g1, hg1, hn1, hp1⟩ =>
          (hp g1 hg1).elim
            (fun ⟨g0, hg0, hn0, hp0⟩ => Or.inl ⟨g0, hg0, hn0.trans hn1, hp0.trans hp1⟩)
            (fun hfalse => Or.inr (hp1 ▸ hfalse)))
        Or.inr)
    m (fun g2 hg2 => Or.inl ⟨g2, hg2, rfl, rfl⟩)) g h

theorem walk_noCand {oc : Name → Option Name} {m : MModule}
    (hOc2 : ∀ s, oc (nm "spirv." ++ s) = none)
    (h : NoCandCalls oc m) : NoCandCalls oc (walk m) := by
  intro g hg hptr hoc
  cases hcall : hasCallTo (walk m) g.name with
  | false => rfl
  | true =>
      obtain ⟨f, hf, b, hb, i, hi, hc⟩ := hasCallTo_exists hcall
      rcases walk_calleeOK f hf b hb i hi g.name hc with ⟨s, hs⟩ | h1
      · rw [hs, hOc2 s] at hoc
        cases hoc
      · rcases walk_mem_trace hg with ⟨g0, hg0, hname, hptr0⟩ | h2
        · have hno := h g0 hg0 (hptr0.trans hptr) (by rw [hname]; exact hoc)
          rw [hname] at hno
          rw [hno] at h1
          cases h1
        · rw [h2] at hptr
          cases hptr

/- ===================== C7: reuse and second application ===================== -/

theorem walk_noDup {m : MModule} (h : NoDupNames m) : NoDupNames (walk m) :=
  foldl_stepFunc_pres_of (P := NoDupNames) _ (fun _ _ _ hp => stepFunc_noDup hp) m h

theorem getOrCreateFunction_found {m : MModule} {n : Name} {f : Func}
    (h : findFunc m n = some f) : getOrCreateFunction m n = m := by
  unfold getOrCreateFunction
  rw [h]

theorem buildBodyIfEmpty_found {m : MModule} {n : Name} {f : Func} {synth : List MInstr}
    (h : findFunc m n = some f) (hb : f.body.isSome = true) :
    buildBodyIfEmpty m n synth = m := by
  have hred : buildBodyIfEmpty m n synth
      = match f.body with
        | some _ => m
        | none => ⟨updateFuncBody m.funcs n synth⟩ := by
    unfold buildBodyIfEmpty
    rw [h]
  cases hbb : f.body with
  | none =>
      rw [hbb] at hb
      cases hb
  | some b => rw [hred, hbb]

/-- Counterexample module for C7: the `llvm.fshl.i8` declaration precedes
its only caller in the module order, so it is visited before the lowering
retargets the call, survives the first application dead, and is removed by
the second application's initial elimination. -/
def mod7 : MModule :=
  ⟨[⟨nm "llvm.fshl.i8", false, none⟩,
    ⟨nm "f7", false,
      some [⟨MIKind.callK (nm "llvm.fshl.i8") [] false false false, [], false, false⟩]⟩]⟩

/-- The empty opcode table (no function-pointer builtins). -/
def ocNone : Name → Option Name := fun _ => none

/-- Counterexample to C7 as stated: the transform is not idempotent — the
second application removes the orphaned `llvm.fshl.i8` declaration that the
first application left behind. -/
theorem regularize_not_idempotent :
    regularize ocNone (regularize ocNone mod7) ≠ regularize ocNone mod7 := by
  decide

/-- C7 (amended): lookup-or-create reuse holds — an existing function under
the derived name with a body is reused as-is by all three lowerings, and no
second body is synthesized for it, so at most one synthesis happens per
derived name; but applying the whole transform a second time is not the
identity: it equals the first application followed by one more
dead-declaration elimination, which may erase intrinsic declarations whose
use-lists the first application emptied. (`oc` is the external builtin
table, which classifies neither derived `spirv.` symbols nor decorated
`__spirv_` symbols; module function names are distinct.) -/
theorem lowering_reuse_and_second_run (oc : Name → Option Name) (m : MModule)
    (hOc1 : ∀ x, oc (nm "__spirv_" ++ x) = none)
    (hOc2 : ∀ s, oc (nm "spirv." ++ s) = none)
    (hND : NoDupNames m) :
    (∀ c f, findFunc m (lowerLLVMIntrinsicName c) = some f → f.body.isSome = true →
        lowerFunnelShiftLeft m c = (m, lowerLLVMIntrinsicName c)
          ∧ lowerUMulWithOverflow m c = (m, lowerLLVMIntrinsicName c))
  ∧ (∀ c (valC lenC vol : Bool) f,
        findFunc m (lowerLLVMIntrinsicName c ++ (if vol then nm ".volatile" else []))
          = some f →
        (lowerMemset m c valC lenC vol).1 = m)
  ∧ regularize oc (regularize oc m) = eraseUselessFunctions (regularize oc m) := by
  refine ⟨?_, ?_, ?_⟩
  · intro c f hf hb
    constructor
    · simp only [lowerFunnelShiftLeft, buildFunnelShiftLeftFuncM]
      rw [getOrCreateFunction_found hf, buildBodyIfEmpty_found hf hb]
    · simp only [lowerUMulWithOverflow, buildUMulWithOverflowFuncM]
      rw [getOrCreateFunction_found hf, buildBodyIfEmpty_found hf hb]
  · intro c valC lenC vol f hf
    by_cases hcl : (valC && lenC) = true
    · simp [lowerMemset, hcl]
    · simp [lowerMemset, hcl, hf]
  · have hnd2 : NoDupNames (lowerFuncPtr oc (eraseUselessFunctions m)) :=
      lfp_noDup (eu_noDup hND)
    have hsan_r1 : AllSan (regularize oc m) := walk_san hnd2
    have hcand_r1 : NoCandCalls oc (regularize oc m) :=
      walk_noCand hOc2 (lfp_noCand hOc1)
    show walk (lowerFuncPtr oc (eraseUselessFunctions (regularize oc m)))
        = eraseUselessFunctions (regularize oc m)
    rw [lfp_id (eu_noCand hcand_r1)]
    exact walk_id (eu_allSan hsan_r1) (eu_noDeadDecls _)

/-- Witness for the amended C7 at a concrete module and table. -/
theorem lowering_reuse_and_second_run_witness :
    regularize ocNone (regularize ocNone mod7)
      = eraseUselessFunctions (regularize ocNone mod7) :=
  (lowering_reuse_and_second_run ocNone mod7 (fun _ => rfl) (fun _ => rfl)
    (by show (mod7.funcs.map Func.name).Nodup; decide)).2.2
